import Mathlib

/-!
# Hazard pointers (`hp.h`, `hp.c`): a sequential model

The slot lists, the domain and the four public operations of `hp.c` are
embedded as executable functions on an explicit machine state.

* A chain of `hp_t` nodes is the list of its `ptr` fields, read from the head
  along `next`.  A node is named by its distance from the head.
* `uintptr_t` values are natural numbers; they are only ever compared.
* The user memory holding the shared locations is a list of cells; a
  `prot_ptr` is an index into it.
* `calloc` is an oracle: a list of booleans consumed one per call.
* `dom->deallocator` is an opaque callback; each invocation is recorded,
  together with the protected list as it stands when the callback is entered.
* Every atomic operation is executed in one step and no other thread runs in
  between (one thread of execution).  Loops that may not terminate take fuel.
-/

namespace HP

/-- Flag `DEFER_DEALLOC` of `hp.h`. -/
def DEFER_DEALLOC : Int := 1

/-- Chain of `hp_t` nodes: the `ptr` field of each node, head first. -/
abbrev hp_list := List Nat

/-- Allocator oracle for `calloc(1, sizeof(hp_t))`: the next answer is consumed;
an exhausted oracle answers with failure. -/
def calloc : List Bool → Bool × List Bool
  | [] => (false, [])
  | b :: rest => (b, rest)

/-- Function `list_append`: on allocation failure returns `NULL` (`none`) and
leaves the chain alone; otherwise the new node becomes the head (node `0`),
its `next` being the old head. -/
def list_append (heap : List Bool) (head : hp_list) (ptr : Nat) :
    Option Nat × hp_list × List Bool :=
  match calloc heap with
  | (false, heap1) => (none, head, heap1)
  | (true, heap1) => (some 0, ptr :: head, heap1)

/-- Loop of `list_insert_or_append`: walks the chain from the head and
claims (compare-and-swap from `0` to `ptr`) the first node whose value is `0`.
Returns the node claimed and the chain after the store, or `none` when the walk
ends with `need_alloc` still set. -/
def list_insert_scan : hp_list → Nat → Option (Nat × hp_list)
  | [], _ => none
  | x :: rest, ptr =>
    if x = 0 then some (0, ptr :: rest)
    else
      match list_insert_scan rest ptr with
      | none => none
      | some (node, rest1) => some (node + 1, x :: rest1)

/-- Function `list_insert_or_append`: reuse the first empty node, else append.
Returns the node (or `NULL`), the chain and the allocator oracle afterwards. -/
def list_insert_or_append (heap : List Bool) (head : hp_list) (ptr : Nat) :
    Option Nat × hp_list × List Bool :=
  match list_insert_scan head ptr with
  | some (node, head1) => (some node, head1, heap)
  | none => list_append heap head ptr

/-- Function `list_remove`: walks the chain; the first node whose value equals
`ptr` is stored `0` by compare-and-swap and `true` is returned; `false` when
the walk ends. -/
def list_remove : hp_list → Nat → Bool × hp_list
  | [], _ => (false, [])
  | x :: rest, ptr =>
    if x = ptr then (true, 0 :: rest)
    else
      match list_remove rest ptr with
      | (found, rest1) => (found, x :: rest1)

/-- Function `list_contains`: walks the chain; `true` at the first node whose
value equals `ptr`. -/
def list_contains : hp_list → Nat → Bool
  | [], _ => false
  | x :: rest, ptr => if x = ptr then true else list_contains rest ptr

/-- Compare-and-swap on the `ptr` field of one node, as `load` does on the node
it has just been handed: succeeds iff the node holds `expected`. -/
def node_cas (head : hp_list) (node expected desired : Nat) : Bool × hp_list :=
  match head[node]? with
  | none => (false, head)
  | some x => if x = expected then (true, head.set node desired) else (false, head)

/-- Struct `domain_t`: the protected list `pointers` and the retired list
`retired`.  The `deallocator` field is the callback recorded by `World.freed`. -/
structure domain_t where
  pointers : hp_list
  retired : hp_list
  deriving DecidableEq

/-- One invocation of `dom->deallocator`: its argument, and the protected list
as it stands when the callback is entered. -/
structure Dealloc where
  val : Nat
  prot : hp_list
  deriving DecidableEq

/-- Machine state: one domain, the user memory of shared locations, the
allocator oracle and the record of deallocator invocations (oldest first). -/
structure World where
  dom : domain_t
  mem : List Nat
  heap : List Bool
  freed : List Dealloc
  deriving DecidableEq

/-- Result of running a call: it returned (`ret`), it was still inside a loop
when the fuel ran out (`hang`), or it reached undefined behaviour (`undef`:
`__builtin_unreachable()` or a `prot_ptr` outside the memory).  The state
reached is kept in each case. -/
inductive Outcome (α : Type) where
  | ret (val : α) (w : World)
  | hang (w : World)
  | undef (w : World)
  deriving DecidableEq

/-- State carried by an outcome. -/
def Outcome.world {α : Type} : Outcome α → World
  | .ret _ w => w
  | .hang w => w
  | .undef w => w

/-- Whether the call returned. -/
def Outcome.returned {α : Type} : Outcome α → Bool
  | .ret _ _ => true
  | _ => false

/-- Function `domain_new`: `calloc` of a zeroed domain; both lists empty.
`none` is the `NULL` returned on allocation failure. -/
def domain_new (mem : List Nat) (heap : List Bool) : Option World :=
  match calloc heap with
  | (false, _) => none
  | (true, heap1) => some ⟨⟨[], []⟩, mem, heap1, []⟩

/-- Call `dom->deallocator((void *) ptr)`. -/
def deallocator (w : World) (ptr : Nat) : World :=
  { w with freed := w.freed ++ [⟨ptr, w.dom.pointers⟩] }

/-- Store a new protected list in the domain. -/
def World.setPointers (w : World) (ps : hp_list) : World :=
  { w with dom := { w.dom with pointers := ps } }

/-- Store a new retired list in the domain. -/
def World.setRetired (w : World) (rs : hp_list) : World :=
  { w with dom := { w.dom with retired := rs } }

/-- Function `load`.  One unit of fuel per turn of `while (1)`. -/
def load : Nat → World → Nat → Outcome Nat
  | 0, w, _ => .hang w
  | fuel + 1, w, prot_ptr =>
    match w.mem[prot_ptr]? with
    | none => .undef w
    | some val =>
      match list_insert_or_append w.heap w.dom.pointers val with
      | (none, ps, heap1) => .ret 0 { w.setPointers ps with heap := heap1 }
      | (some node, ps, heap1) =>
        let w1 : World := { w.setPointers ps with heap := heap1 }
        if w1.mem[prot_ptr]? = some val then .ret val w1
        else
          match node_cas ps node val 0 with
          | (true, ps1) => load fuel (w1.setPointers ps1) prot_ptr
          | (false, ps1) => load fuel (w1.setPointers (list_remove ps1 val).2) prot_ptr

/-- Function `drop`: `__builtin_unreachable()` when `list_remove` fails. -/
def drop (w : World) (safe_val : Nat) : Outcome Unit :=
  match list_remove w.dom.pointers safe_val with
  | (true, ps) => .ret () (w.setPointers ps)
  | (false, ps) => .undef (w.setPointers ps)

/-- Loop `while (list_contains(&dom->pointers, ptr)) ;` of `cleanup_ptr` and
`cleanup`.  One unit of fuel per evaluation of the loop condition. -/
def spin : Nat → World → Nat → Outcome Unit
  | 0, w, _ => .hang w
  | fuel + 1, w, ptr =>
    if list_contains w.dom.pointers ptr then spin fuel w ptr else .ret () w

/-- Function `cleanup_ptr`.  The node returned by `list_insert_or_append` is
discarded, as in the source. -/
def cleanup_ptr (fuel : Nat) (w : World) (ptr : Nat) (flags : Int) : Outcome Unit :=
  if !list_contains w.dom.pointers ptr then .ret () (deallocator w ptr)
  else if Int.land flags DEFER_DEALLOC ≠ 0 then
    match list_insert_or_append w.heap w.dom.retired ptr with
    | (_, rs, heap1) => .ret () { w.setRetired rs with heap := heap1 }
  else
    match spin fuel w ptr with
    | .ret _ w1 => .ret () (deallocator w1 ptr)
    | .hang w1 => .hang w1
    | .undef w1 => .undef w1

/-- Function `swap`: `atomic_exchange` on the location, then `cleanup_ptr` on
the old value. -/
def swap (fuel : Nat) (w : World) (prot_ptr new_val : Nat) (flags : Int) : Outcome Unit :=
  match w.mem[prot_ptr]? with
  | none => .undef w
  | some old_obj => cleanup_ptr fuel { w with mem := w.mem.set prot_ptr new_val } old_obj flags

/-- The two lines `if (list_remove(&dom->retired, ptr)) dom->deallocator(ptr);`
of `cleanup`. -/
def remove_and_free (w : World) (ptr : Nat) : World :=
  match list_remove w.dom.retired ptr with
  | (true, rs) => deallocator (w.setRetired rs) ptr
  | (false, rs) => w.setRetired rs

/-- Loop of `cleanup`: `node` is the cursor of `LIST_ITER (&dom->retired, node)`;
the walk ends when the cursor runs off the chain.  `steps` bounds the number of
nodes visited. -/
def cleanup_loop (fuel : Nat) (flags : Int) : Nat → Nat → World → Outcome Unit
  | 0, node, w =>
    match w.dom.retired[node]? with
    | none => .ret () w
    | some _ => .hang w
  | steps + 1, node, w =>
    match w.dom.retired[node]? with
    | none => .ret () w
    | some ptr =>
      if ptr = 0 then cleanup_loop fuel flags steps (node + 1) w
      else if !list_contains w.dom.pointers ptr then
        cleanup_loop fuel flags steps (node + 1) (remove_and_free w ptr)
      else if ¬ (Int.land flags DEFER_DEALLOC ≠ 0) then
        match spin fuel w ptr with
        | .ret _ w1 => cleanup_loop fuel flags steps (node + 1) (remove_and_free w1 ptr)
        | .hang w1 => .hang w1
        | .undef w1 => .undef w1
      else cleanup_loop fuel flags steps (node + 1) w

/-- Function `cleanup`: one walk over the retired list, which has
`retired.length` nodes. -/
def cleanup (fuel : Nat) (w : World) (flags : Int) : Outcome Unit :=
  cleanup_loop fuel flags w.dom.retired.length 0 w

/-- A call of the public interface. -/
inductive Call where
  | load (prot_ptr : Nat)
  | drop (safe_val : Nat)
  | swap (prot_ptr new_val : Nat) (flags : Int)
  | cleanup (flags : Int)
  deriving DecidableEq

/-- Run one call; the value returned by `load` is dropped. -/
def exec (fuel : Nat) (w : World) : Call → Outcome Unit
  | .load prot_ptr =>
    match load fuel w prot_ptr with
    | .ret _ w1 => .ret () w1
    | .hang w1 => .hang w1
    | .undef w1 => .undef w1
  | .drop safe_val => drop w safe_val
  | .swap prot_ptr new_val flags => swap fuel w prot_ptr new_val flags
  | .cleanup flags => cleanup fuel w flags

/-- Run a sequence of calls in order, each with the same fuel; the run stops
at the first call that does not return. -/
def run (fuel : Nat) : World → List Call → Outcome Unit
  | w, [] => .ret () w
  | w, c :: cs =>
    match exec fuel w c with
    | .ret _ w1 => run fuel w1 cs
    | .hang w1 => .hang w1
    | .undef w1 => .undef w1

/-! ## Specification-side and bookkeeping definitions -/

/-- A retired value that a sweep reclaims: non-zero and held by no protected slot. -/
def reclaimable (prot : hp_list) (v : Nat) : Bool :=
  v != 0 && !list_contains prot v

/-- Retired list after one deferred sweep, in the words of the specification:
every entry that is reclaimable is cleared, every other entry is left as it was. -/
def spec_sweep_retired (prot rs : hp_list) : hp_list :=
  rs.map (fun v => if reclaimable prot v then 0 else v)

/-- Deallocator invocations of one deferred sweep, in the words of the
specification: one per reclaimable entry, in list order. -/
def spec_sweep_freed (prot rs : hp_list) : List Dealloc :=
  (rs.filter (reclaimable prot)).map (fun v => ⟨v, prot⟩)

/-- State after a sweep that has passed the entries `pre` untouched and sweeps
the entries `suf`. -/
def spec_sweep_from (w : World) (pre suf : hp_list) : World :=
  { w with
    dom := ⟨w.dom.pointers, pre ++ spec_sweep_retired w.dom.pointers suf⟩,
    freed := w.freed ++ spec_sweep_freed w.dom.pointers suf }

/-- The deallocator record of `w1` extends that of `w`, and every invocation
added finds its argument absent from the protected list. -/
def FreedExt (w w1 : World) : Prop :=
  ∃ new, w1.freed = w.freed ++ new ∧ ∀ e ∈ new, list_contains e.prot e.val = false

/-- Values stored into shared locations by a sequence of calls: the `new_val`
of each `swap`, in order. -/
def stores : List Call → List Nat
  | [] => []
  | .swap _ new_val _ :: cs => new_val :: stores cs
  | _ :: cs => stores cs

/-- Arguments of the deallocator invocations so far, oldest first. -/
def World.freedVals (w : World) : List Nat := w.freed.map Dealloc.val

/-- Bookkeeping invariant behind single deallocation: every non-zero value is
accounted for at most once among the memory cells, the values still to be
stored, the retired slots and the deallocator record; and a value already
handed to the deallocator is in no protected slot. -/
def Accounted (w : World) (future : List Nat) : Prop :=
  ∀ v, v ≠ 0 →
    w.mem.count v + future.count v + w.dom.retired.count v + w.freedVals.count v ≤ 1 ∧
    (1 ≤ w.freedVals.count v → w.dom.pointers.count v = 0)

/-- Relation between a chain before and after an operation: either no node was
added (same node count, nodes in place), or exactly one node was added, at the
head, and the old chain follows it untouched. -/
def chain_kept (old new : hp_list) : Prop :=
  new.length = old.length ∨ ∃ x, new = x :: old

/-- Sequence of calls of `n` consecutive load/drop cycles on one location whose
value is `V`. -/
def cycles (prot_ptr V : Nat) : Nat → List Call
  | 0 => []
  | n + 1 => .load prot_ptr :: .drop V :: cycles prot_ptr V n

/-- Number of `load` calls in a sequence. -/
def num_loads : List Call → Nat
  | [] => 0
  | .load _ :: cs => num_loads cs + 1
  | _ :: cs => num_loads cs

/-- Number of `drop` calls in a sequence. -/
def num_drops : List Call → Nat
  | [] => 0
  | .drop _ :: cs => num_drops cs + 1
  | _ :: cs => num_drops cs

/-- A sequence made only of loads of the location `prot_ptr` and drops of `V`, in
which every drop has a protection to release: `credit` is the number of
protections held when the sequence starts, each load adds one and each drop
takes one. -/
def well_matched (prot_ptr V : Nat) : Nat → List Call → Bool
  | _, [] => true
  | credit, c :: cs =>
    match c with
    | .load q => q == prot_ptr && well_matched prot_ptr V (credit + 1) cs
    | .drop u =>
      match credit with
      | 0 => false
      | k + 1 => u == V && well_matched prot_ptr V k cs
    | _ => false

/-- A value `v` that no call can reach any more: no memory cell holds it, no
retired slot holds it (for non-zero `v`), and the deallocator has been
invoked on it `c` times. -/
def Leaked (v c : Nat) (w : World) : Prop :=
  v ∉ w.mem ∧ (v ≠ 0 → v ∉ w.dom.retired) ∧ w.freedVals.count v = c

/-! ## Theorems -/

theorem list_contains_iff (l : hp_list) (v : Nat) : list_contains l v = true ↔ v ∈ l := by
  induction l with
  | nil => simp [list_contains]
  | cons x rest ih =>
    by_cases h : x = v
    · simp [list_contains, h]
    · have h2 : ¬ v = x := fun e => h e.symm
      simp [list_contains, h, h2, ih]

theorem list_contains_false_iff (l : hp_list) (v : Nat) : list_contains l v = false ↔ v ∉ l := by
  rw [← list_contains_iff]; simp

theorem list_remove_fst (l : hp_list) (v : Nat) : (list_remove l v).1 = list_contains l v := by
  induction l with
  | nil => rfl
  | cons x rest ih =>
    by_cases h : x = v
    · simp [list_remove, list_contains, h]
    · simp [list_remove, list_contains, h, ih]

theorem list_remove_length (l : hp_list) (v : Nat) : (list_remove l v).2.length = l.length := by
  induction l with
  | nil => rfl
  | cons x rest ih =>
    by_cases h : x = v
    · simp [list_remove, h]
    · simp [list_remove, h, ih]

theorem list_remove_not_mem (l : hp_list) (v : Nat) (h : v ∉ l) : list_remove l v = (false, l) := by
  induction l with
  | nil => rfl
  | cons x rest ih =>
    have hx : ¬ x = v := fun e => h (by simp [e])
    have hr : v ∉ rest := fun e => h (by simp [e])
    simp [list_remove, hx, ih hr]

theorem list_remove_append (pre l : hp_list) (v : Nat) (h : v ∉ pre) :
    list_remove (pre ++ l) v = ((list_remove l v).1, pre ++ (list_remove l v).2) := by
  induction pre with
  | nil => simp
  | cons x rest ih =>
    have hx : ¬ x = v := fun e => h (by simp [e])
    have hr : v ∉ rest := fun e => h (by simp [e])
    simp [list_remove, hx, ih hr]

theorem list_remove_split (l : hp_list) (v : Nat) (h : v ∈ l) :
    ∃ pre post, l = pre ++ v :: post ∧ v ∉ pre ∧ list_remove l v = (true, pre ++ 0 :: post) := by
  induction l with
  | nil => simp at h
  | cons x rest ih =>
    by_cases hx : x = v
    · exact ⟨[], rest, by simp [hx], by simp, by simp [list_remove, hx]⟩
    · have hr : v ∈ rest := by
        rcases List.mem_cons.1 h with e | e
        · exact absurd e.symm hx
        · exact e
      obtain ⟨pre, post, h1, h2, h3⟩ := ih hr
      refine ⟨x :: pre, post, by simp [h1], ?_, by simp [list_remove, hx, h3]⟩
      simp [h2]; exact fun e => hx e.symm

theorem list_remove_count (l : hp_list) (v : Nat) (h : v ∈ l) (hv : v ≠ 0) :
    (list_remove l v).2.count v + 1 = l.count v := by
  obtain ⟨pre, post, h1, h2, h3⟩ := list_remove_split l v h
  rw [h3, h1]
  simp [List.count_append, List.count_cons, hv.symm]
  omega

theorem list_remove_count_ne (l : hp_list) (v u : Nat) (hu : u ≠ v) (hu0 : u ≠ 0) :
    (list_remove l v).2.count u = l.count u := by
  by_cases h : v ∈ l
  · obtain ⟨pre, post, h1, h2, h3⟩ := list_remove_split l v h
    rw [h3, h1]
    simp [List.count_append, List.count_cons, hu0.symm, hu.symm]
  · rw [list_remove_not_mem l v h]

theorem list_insert_scan_none (l : hp_list) (v : Nat) (h : 0 ∉ l) : list_insert_scan l v = none := by
  induction l with
  | nil => rfl
  | cons x rest ih =>
    have hx : ¬ x = 0 := fun e => h (by simp [e])
    have hr : 0 ∉ rest := fun e => h (by simp [e])
    simp [list_insert_scan, hx, ih hr]

theorem list_insert_scan_split (l : hp_list) (v : Nat) (h : 0 ∈ l) :
    ∃ pre post, l = pre ++ 0 :: post ∧ 0 ∉ pre ∧
      list_insert_scan l v = some (pre.length, pre ++ v :: post) := by
  induction l with
  | nil => simp at h
  | cons x rest ih =>
    by_cases hx : x = 0
    · exact ⟨[], rest, by simp [hx], by simp, by simp [list_insert_scan, hx]⟩
    · have hr : 0 ∈ rest := by
        rcases List.mem_cons.1 h with e | e
        · exact absurd e.symm hx
        · exact e
      obtain ⟨pre, post, h1, h2, h3⟩ := ih hr
      refine ⟨x :: pre, post, by simp [h1], ?_, by simp [list_insert_scan, hx, h3]⟩
      simp [h2]; exact fun e => hx e.symm

theorem list_insert_or_append_some (heap : List Bool) (l : hp_list) (v : Nat)
    (h : list_contains l 0 = true ∨ (calloc heap).1 = true) :
    ∃ node ps heap1, list_insert_or_append heap l v = (some node, ps, heap1) ∧
      ps[node]? = some v ∧ v ∈ ps := by
  by_cases h0 : 0 ∈ l
  · obtain ⟨pre, post, h1, h2, h3⟩ := list_insert_scan_split l v h0
    refine ⟨pre.length, pre ++ v :: post, heap, by simp [list_insert_or_append, h3], ?_, by simp⟩
    rw [List.getElem?_append_right (Nat.le_refl _)]
    simp
  · have hc : (calloc heap).1 = true := by
      rcases h with h | h
      · exact absurd ((list_contains_iff l 0).1 h) h0
      · exact h
    refine ⟨0, v :: l, (calloc heap).2, ?_, by simp, by simp⟩
    rw [list_insert_or_append, list_insert_scan_none l v h0]
    simp only [list_append]
    cases hcal : calloc heap with
    | mk b heap1 =>
      rw [hcal] at hc
      simp at hc
      simp [hc]

theorem list_insert_or_append_none (heap : List Bool) (l : hp_list) (v : Nat) (ps : hp_list)
    (heap1 : List Bool) (h : list_insert_or_append heap l v = (none, ps, heap1)) :
    list_contains l 0 = false ∧ (calloc heap).1 = false ∧ ps = l ∧ heap1 = (calloc heap).2 := by
  by_cases h0 : 0 ∈ l
  · obtain ⟨pre, post, h1, h2, h3⟩ := list_insert_scan_split l v h0
    simp [list_insert_or_append, h3] at h
  · rw [list_insert_or_append, list_insert_scan_none l v h0] at h
    simp only [list_append] at h
    cases hcal : calloc heap with
    | mk b heap2 =>
      rw [hcal] at h
      cases b with
      | true => simp at h
      | false =>
        simp at h
        exact ⟨(list_contains_false_iff l 0).2 h0, rfl, h.1.symm, h.2.symm⟩

theorem spin_blocked (fuel : Nat) (w : World) (ptr : Nat)
    (h : list_contains w.dom.pointers ptr = true) : spin fuel w ptr = .hang w := by
  induction fuel with
  | zero => rfl
  | succ n ih => simp [spin, h, ih]

theorem spin_clear (fuel : Nat) (w : World) (ptr : Nat)
    (h : list_contains w.dom.pointers ptr = false) : spin (fuel + 1) w ptr = .ret () w := by
  simp [spin, h]

theorem spin_cases (fuel : Nat) (w : World) (ptr : Nat) :
    spin fuel w ptr = .hang w ∨
      (spin fuel w ptr = .ret () w ∧ list_contains w.dom.pointers ptr = false) := by
  cases fuel with
  | zero => exact Or.inl rfl
  | succ n =>
    cases h : list_contains w.dom.pointers ptr with
    | true => exact Or.inl (spin_blocked _ w ptr h)
    | false => exact Or.inr ⟨spin_clear n w ptr h, rfl⟩

/-- Claim C3 (round trip).  If the shared location holds `V` and a slot can be
had (an empty protected slot exists, so nothing is allocated, or the next
allocation succeeds), then `load` returns `V` in its first turn of the loop and
leaves the memory, hence the location, unchanged; in the state reached
`list_remove` on the protected list finds `V`, so the following `drop` returns
without reaching `__builtin_unreachable()`. -/
theorem load_drop_round_trip (fuel : Nat) (w : World) (prot_ptr V : Nat)
    (hV : w.mem[prot_ptr]? = some V)
    (halloc : list_contains w.dom.pointers 0 = true ∨ (calloc w.heap).1 = true) :
    ∃ w1, load (fuel + 1) w prot_ptr = .ret V w1 ∧ w1.mem = w.mem ∧
      w1.mem[prot_ptr]? = some V ∧ (list_remove w1.dom.pointers V).1 = true ∧
      ∃ w2, drop w1 V = .ret () w2 := by
  obtain ⟨node, ps, heap1, h1, h2, h3⟩ :=
    list_insert_or_append_some w.heap w.dom.pointers V halloc
  have hrem : (list_remove ps V).1 = true := by
    rw [list_remove_fst]; exact (list_contains_iff ps V).2 h3
  refine ⟨{ w.setPointers ps with heap := heap1 }, ?_, rfl, hV, hrem, ?_⟩
  · simp [load, hV, h1, World.setPointers]
  · refine ⟨(World.setPointers { w.setPointers ps with heap := heap1 } (list_remove ps V).2), ?_⟩
    simp only [drop, World.setPointers]
    cases hr : list_remove ps V with
    | mk b l =>
      rw [hr] at hrem
      simp at hrem
      simp [hrem]

theorem load_drop_round_trip_witness :
    ∃ w1, load (0 + 1) ⟨⟨[9], [3]⟩, [4, 5], [true], []⟩ 1 = .ret 5 w1 ∧
      w1.mem = [4, 5] ∧ w1.mem[1]? = some 5 ∧ (list_remove w1.dom.pointers 5).1 = true ∧
      ∃ w2, drop w1 5 = .ret () w2 :=
  load_drop_round_trip 0 ⟨⟨[9], [3]⟩, [4, 5], [true], []⟩ 1 5 (by decide) (Or.inr (by decide))

theorem cleanup_loop_sweep (fuel : Nat) (flags : Int) (suf : hp_list) :
    ∀ (pre : hp_list) (w : World) (steps : Nat),
      w.dom.retired = pre ++ suf →
      (∀ x ∈ pre, reclaimable w.dom.pointers x = false) →
      suf.length ≤ steps →
      (Int.land flags DEFER_DEALLOC ≠ 0 ∨
        ∀ x ∈ suf, x ≠ 0 → list_contains w.dom.pointers x = false) →
      cleanup_loop fuel flags steps pre.length w = .ret () (spec_sweep_from w pre suf) := by
  induction suf with
  | nil =>
    intro pre w steps hr _ _ _
    have hnone : w.dom.retired[pre.length]? = none := by simp [hr]
    have hw : spec_sweep_from w pre [] = w := by
      cases w with
      | mk dom mem heap freed =>
        cases dom with
        | mk ps rs =>
          simp at hr
          simp [spec_sweep_from, spec_sweep_retired, spec_sweep_freed, hr]
    rw [hw]
    cases steps with
    | zero => simp [cleanup_loop, hnone]
    | succ s => simp [cleanup_loop, hnone]
  | cons x rest ih =>
    intro pre w steps hr hpre hlen hfl
    obtain ⟨s, rfl⟩ : ∃ s, steps = s + 1 := ⟨steps - 1, by simp at hlen; omega⟩
    have hsome : w.dom.retired[pre.length]? = some x := by
      rw [hr, List.getElem?_append_right (Nat.le_refl _)]; simp
    have hlen2 : rest.length ≤ s := by simp at hlen; omega
    have hcur : (pre ++ [x]).length = pre.length + 1 := by simp
    rw [cleanup_loop, hsome]
    simp only []
    by_cases hx0 : x = 0
    · -- empty entry: `continue`
      rw [if_pos hx0]
      have h := ih (pre ++ [x]) w s (by simp [hr])
        (by
          intro y hy
          rcases List.mem_append.1 hy with hy | hy
          · exact hpre y hy
          · simp at hy; simp [hy, hx0, reclaimable])
        hlen2
        (by
          rcases hfl with hfl | hfl
          · exact Or.inl hfl
          · exact Or.inr (fun y hy => hfl y (List.mem_cons_of_mem _ hy)))
      rw [hcur] at h
      rw [h]
      simp [spec_sweep_from, spec_sweep_retired, spec_sweep_freed, hx0, reclaimable]
    · rw [if_neg hx0]
      cases hc : list_contains w.dom.pointers x with
      | false =>
        have hrec : reclaimable w.dom.pointers x = true := by simp [reclaimable, hx0, hc]
        have hxpre : x ∉ pre := fun hm => by
          have := hpre x hm
          rw [hrec] at this
          exact Bool.noConfusion this
        have hrem : list_remove w.dom.retired x = (true, pre ++ 0 :: rest) := by
          rw [hr, list_remove_append pre (x :: rest) x hxpre]
          simp [list_remove]
        simp only [Bool.not_false, if_true]
        have hw1 : remove_and_free w x =
            deallocator (w.setRetired (pre ++ 0 :: rest)) x := by
          simp [remove_and_free, hrem]
        rw [hw1]
        have h := ih (pre ++ [0]) (deallocator (w.setRetired (pre ++ 0 :: rest)) x) s
          (by simp [deallocator, World.setRetired])
          (by
            intro y hy
            rcases List.mem_append.1 hy with hy | hy
            · simpa [deallocator, World.setRetired] using hpre y hy
            · simp at hy; simp [hy, reclaimable])
          hlen2
          (by
            rcases hfl with hfl | hfl
            · exact Or.inl hfl
            · exact Or.inr (fun y hy => by
                simpa [deallocator, World.setRetired] using hfl y (List.mem_cons_of_mem _ hy)))
        have hcur0 : (pre ++ [0]).length = pre.length + 1 := by simp
        rw [hcur0] at h
        rw [h]
        simp [spec_sweep_from, spec_sweep_retired, spec_sweep_freed, hrec, deallocator,
          World.setRetired]
      | true =>
        have hrec : reclaimable w.dom.pointers x = false := by simp [reclaimable, hc]
        have hdef : Int.land flags DEFER_DEALLOC ≠ 0 := by
          rcases hfl with hfl | hfl
          · exact hfl
          · have := hfl x (by simp) hx0
            rw [hc] at this
            exact Bool.noConfusion this
        simp only [Bool.not_true, Bool.false_eq_true, if_false, hdef, not_true_eq_false,
          ne_eq, not_false_eq_true]
        have h := ih (pre ++ [x]) w s (by simp [hr])
          (by
            intro y hy
            rcases List.mem_append.1 hy with hy | hy
            · exact hpre y hy
            · simp at hy; simp [hy, hrec])
          hlen2
          (by
            rcases hfl with hfl | hfl
            · exact Or.inl hfl
            · exact Or.inr (fun y hy => hfl y (List.mem_cons_of_mem _ hy)))
        rw [hcur] at h
        rw [h]
        simp [spec_sweep_from, spec_sweep_retired, spec_sweep_freed, hrec]

theorem land_defer : Int.land DEFER_DEALLOC DEFER_DEALLOC ≠ 0 := by decide

theorem land_zero : Int.land 0 DEFER_DEALLOC = 0 := by decide

theorem cleanup_sweep (fuel : Nat) (w : World) (flags : Int)
    (hfl : Int.land flags DEFER_DEALLOC ≠ 0 ∨
      ∀ x ∈ w.dom.retired, x ≠ 0 → list_contains w.dom.pointers x = false) :
    cleanup fuel w flags = .ret () (spec_sweep_from w [] w.dom.retired) := by
  have h := cleanup_loop_sweep fuel flags w.dom.retired [] w w.dom.retired.length
    (by simp) (by simp) (Nat.le_refl _) hfl
  simpa [cleanup] using h

/-- Claim C7.  From every state, `cleanup` with `DEFER_DEALLOC` returns after one
walk over the retired list: every retired slot holding a non-zero value that no
protected slot holds is cleared, every other retired slot is left as it was, the
deallocator is invoked once per cleared slot, in list order, on the value of
that slot and on nothing else; the protected list, the memory and the
allocator are untouched. -/
theorem cleanup_deferred_sweeps_once (fuel : Nat) (w : World) :
    ∃ w1, cleanup fuel w DEFER_DEALLOC = .ret () w1 ∧
      w1.dom.retired = spec_sweep_retired w.dom.pointers w.dom.retired ∧
      w1.freed = w.freed ++ spec_sweep_freed w.dom.pointers w.dom.retired ∧
      w1.dom.pointers = w.dom.pointers ∧ w1.mem = w.mem ∧ w1.heap = w.heap :=
  ⟨spec_sweep_from w [] w.dom.retired, cleanup_sweep fuel w DEFER_DEALLOC (Or.inl land_defer),
    by simp [spec_sweep_from], rfl, rfl, rfl, rfl⟩

theorem cleanup_ptr_deferred (fuel : Nat) (w : World) (ptr : Nat) (flags : Int)
    (hf : Int.land flags DEFER_DEALLOC ≠ 0) :
    cleanup_ptr fuel w ptr flags =
      if list_contains w.dom.pointers ptr then
        .ret () { w.setRetired (list_insert_or_append w.heap w.dom.retired ptr).2.1 with
          heap := (list_insert_or_append w.heap w.dom.retired ptr).2.2 }
      else .ret () (deallocator w ptr) := by
  cases hc : list_contains w.dom.pointers ptr with
  | false => simp [cleanup_ptr, hc]
  | true => simp [cleanup_ptr, hc, hf]

/-- Claim C6.  With the `DEFER_DEALLOC` bit set, `swap` (on a valid location) and
`cleanup` return from every state, and they do so with no fuel at all: neither
spin loop evaluates its condition even once.  More fuel changes nothing. -/
theorem deferred_calls_never_spin (fuel : Nat) (w : World) (prot_ptr new_val old : Nat)
    (flags : Int) (hf : Int.land flags DEFER_DEALLOC ≠ 0)
    (hp : w.mem[prot_ptr]? = some old) :
    swap fuel w prot_ptr new_val flags = swap 0 w prot_ptr new_val flags ∧
      (swap 0 w prot_ptr new_val flags).returned = true ∧
      cleanup fuel w flags = cleanup 0 w flags ∧
      (cleanup 0 w flags).returned = true := by
  refine ⟨?_, ?_, ?_, ?_⟩
  · simp [swap, hp, cleanup_ptr_deferred _ _ _ _ hf]
  · simp only [swap, hp, cleanup_ptr_deferred _ _ _ _ hf]
    split <;> rfl
  · rw [cleanup_sweep fuel w flags (Or.inl hf), cleanup_sweep 0 w flags (Or.inl hf)]
  · rw [cleanup_sweep 0 w flags (Or.inl hf)]; rfl

theorem deferred_calls_never_spin_witness :
    (swap 0 ⟨⟨[5], [9]⟩, [5], [true], []⟩ 0 7 DEFER_DEALLOC).returned = true ∧
      (cleanup 0 ⟨⟨[5], [9, 5]⟩, [5], [true], []⟩ DEFER_DEALLOC).returned = true :=
  ⟨(deferred_calls_never_spin 0 ⟨⟨[5], [9]⟩, [5], [true], []⟩ 0 7 5 DEFER_DEALLOC
      (by decide) (by decide)).2.1,
   (deferred_calls_never_spin 0 ⟨⟨[5], [9, 5]⟩, [5], [true], []⟩ 0 7 5 DEFER_DEALLOC
      (by decide) (by decide)).2.2.2⟩

/-- Claim C4, amended.  When no protected slot holds the old value of the
location, `swap` with flags `0` returns without spinning; the location holds
the new value, the deallocator has been invoked exactly once more, on the old
value, and the protected list, the retired list and the allocator are
unchanged. -/
theorem swap_blocking_unprotected (fuel : Nat) (w : World) (prot_ptr new_val old : Nat)
    (hold : w.mem[prot_ptr]? = some old)
    (hfree : list_contains w.dom.pointers old = false) :
    ∃ w1, swap fuel w prot_ptr new_val 0 = .ret () w1 ∧
      w1.mem = w.mem.set prot_ptr new_val ∧ w1.mem[prot_ptr]? = some new_val ∧
      w1.freed = w.freed ++ [⟨old, w.dom.pointers⟩] ∧
      w1.dom = w.dom ∧ w1.heap = w.heap := by
  refine ⟨deallocator { w with mem := w.mem.set prot_ptr new_val } old, ?_, rfl, ?_, rfl, rfl, rfl⟩
  · simp [swap, hold, cleanup_ptr, hfree]
  · have hlt : prot_ptr < w.mem.length := by
      by_contra hge
      rw [List.getElem?_eq_none (Nat.le_of_not_lt hge)] at hold
      exact Option.noConfusion hold
    simp [deallocator, hlt]

theorem swap_blocking_unprotected_witness :
    ∃ w1, swap 0 ⟨⟨[9, 0], [3]⟩, [5, 8], [], []⟩ 0 7 0 = .ret () w1 ∧
      w1.mem = [7, 8] ∧ w1.mem[0]? = some 7 ∧
      w1.freed = [⟨5, [9, 0]⟩] ∧ w1.dom = ⟨[9, 0], [3]⟩ ∧ w1.heap = [] :=
  swap_blocking_unprotected 0 ⟨⟨[9, 0], [3]⟩, [5, 8], [], []⟩ 0 7 5 (by decide) (by decide)

/-- Claim C4 fails as stated, for the old value `0`.  On a fresh domain one
`load` of a location holding `5` followed by `drop(5)` leaves one empty
protected slot; no `load` has returned `0`, yet `swap` with flags `0` on a
location holding `0` finds `0` in the protected list and never returns,
whatever the fuel. -/
theorem swap_blocking_sentinel_hangs :
    domain_new [0, 5] [true, true] = some ⟨⟨[], []⟩, [0, 5], [true], []⟩ ∧
      load 1 ⟨⟨[], []⟩, [0, 5], [true], []⟩ 1 = .ret 5 ⟨⟨[5], []⟩, [0, 5], [], []⟩ ∧
      drop ⟨⟨[5], []⟩, [0, 5], [], []⟩ 5 = .ret () ⟨⟨[0], []⟩, [0, 5], [], []⟩ ∧
      ¬ ∃ fuel, (swap fuel ⟨⟨[0], []⟩, [0, 5], [], []⟩ 0 7 0).returned = true := by
  refine ⟨by decide, by decide, by decide, ?_⟩
  rintro ⟨fuel, h⟩
  have hs : spin fuel ⟨⟨[0], []⟩, [7, 5], [], []⟩ 0 = .hang ⟨⟨[0], []⟩, [7, 5], [], []⟩ :=
    spin_blocked fuel _ 0 (by decide)
  simp [swap, cleanup_ptr, list_contains, land_zero, hs, Outcome.returned] at h

/-- Claim C8, amended.  For a location holding a non-zero value, if `load`
returns `0` then the protected list had no empty slot and the allocation of the
new slot failed in that call; nothing but the allocator oracle has changed. -/
theorem load_zero_only_on_alloc_failure (fuel : Nat) (w w1 : World) (prot_ptr val : Nat)
    (hval : w.mem[prot_ptr]? = some val) (hnz : val ≠ 0)
    (h0 : load fuel w prot_ptr = .ret 0 w1) :
    list_contains w.dom.pointers 0 = false ∧ (calloc w.heap).1 = false ∧
      w1 = { w with heap := (calloc w.heap).2 } := by
  cases fuel with
  | zero => simp [load] at h0
  | succ n =>
    rw [load, hval] at h0
    simp only [] at h0
    cases hins : list_insert_or_append w.heap w.dom.pointers val with
    | mk node rest =>
      cases rest with
      | mk ps heap1 =>
        rw [hins] at h0
        cases node with
        | none =>
          obtain ⟨h1, h2, h3, h4⟩ := list_insert_or_append_none _ _ _ _ _ hins
          simp only [Outcome.ret.injEq, true_and] at h0
          refine ⟨h1, h2, ?_⟩
          rw [← h0, h3, h4]
          simp [World.setPointers]
        | some nd =>
          simp [World.setPointers, hval] at h0
          exact absurd h0.1 hnz

theorem load_zero_only_on_alloc_failure_witness :
    list_contains ([7] : hp_list) 0 = false ∧ (calloc [false, true]).1 = false ∧
      (⟨⟨[7], []⟩, [5], [true], []⟩ : World) =
        { (⟨⟨[7], []⟩, [5], [false, true], []⟩ : World) with heap := (calloc [false, true]).2 } :=
  load_zero_only_on_alloc_failure 1 ⟨⟨[7], []⟩, [5], [false, true], []⟩
    ⟨⟨[7], []⟩, [5], [true], []⟩ 0 5 (by decide) (by decide) (by decide)

/-- Claim C8 fails as stated, for a location holding `0`.  On a fresh domain
`load` allocates a slot successfully and returns `0`; called again it reuses
the empty slot, allocates nothing, and returns `0` again. -/
theorem load_returns_zero_from_zero_location :
    domain_new [0] [true, true] = some ⟨⟨[], []⟩, [0], [true], []⟩ ∧
      (calloc [true]).1 = true ∧
      load 1 ⟨⟨[], []⟩, [0], [true], []⟩ 0 = .ret 0 ⟨⟨[0], []⟩, [0], [], []⟩ ∧
      load 1 ⟨⟨[0], []⟩, [0], [], []⟩ 0 = .ret 0 ⟨⟨[0], []⟩, [0], [], []⟩ := by
  decide

/-- Claim C10, amended.  `list_remove` returns `true` iff some slot holds `v`; when
one does, the chain splits as `pre ++ v :: post` with `v` not in `pre`, and the
result is `pre ++ 0 :: post`: only the first slot holding `v` is written, and
for non-zero `v` the number of slots holding `v` drops by exactly one.  When no
slot holds `v`, and also when `v = 0`, the chain is unchanged.  The node count
never changes. -/
theorem list_remove_clears_first_match (l : hp_list) (v : Nat) :
    ((list_remove l v).1 = true ↔ v ∈ l) ∧
      (v ∈ l → ∃ pre post, l = pre ++ v :: post ∧ v ∉ pre ∧
        (list_remove l v).2 = pre ++ 0 :: post ∧
        (v ≠ 0 → (list_remove l v).2.count v + 1 = l.count v)) ∧
      (v ∉ l → (list_remove l v).2 = l) ∧
      (v = 0 → (list_remove l v).2 = l) ∧
      (list_remove l v).2.length = l.length := by
  refine ⟨?_, ?_, ?_, ?_, list_remove_length l v⟩
  · rw [list_remove_fst]; exact list_contains_iff l v
  · intro h
    obtain ⟨pre, post, h1, h2, h3⟩ := list_remove_split l v h
    exact ⟨pre, post, h1, h2, by rw [h3], fun hv => list_remove_count l v h hv⟩
  · intro h
    rw [list_remove_not_mem l v h]
  · intro hv
    by_cases h : v ∈ l
    · obtain ⟨pre, post, h1, h2, h3⟩ := list_remove_split l v h
      rw [h3]; rw [hv] at h1; exact h1.symm
    · rw [list_remove_not_mem l v h]

theorem list_remove_clears_first_match_witness :
    (list_remove [7, 3, 3] 3).2.count 3 + 1 = ([7, 3, 3] : hp_list).count 3 := by
  obtain ⟨_, _, _, _, _, hc⟩ := (list_remove_clears_first_match [7, 3, 3] 3).2.1 (by decide)
  exact hc (by decide)

/-- Claim C10 fails as stated, for `v = 0`: `list_remove` returns `true` but the
number of slots holding `0` does not drop. -/
theorem list_remove_zero_keeps_count :
    list_remove [4, 0, 0] 0 = (true, [4, 0, 0]) ∧
      ¬ ((list_remove [4, 0, 0] 0).2.count 0 + 1 = ([4, 0, 0] : hp_list).count 0) := by
  decide

theorem list_append_eq (heap : List Bool) (l : hp_list) (v : Nat) :
    list_append heap l v =
      if (calloc heap).1 = true then (some 0, v :: l, (calloc heap).2)
      else (none, l, (calloc heap).2) := by
  simp only [list_append]
  cases hcal : calloc heap with
  | mk b heap1 => cases b <;> rfl

theorem list_insert_or_append_count (heap : List Bool) (l : hp_list) (v u : Nat) (hu : u ≠ 0) :
    (list_insert_or_append heap l v).2.1.count u =
      l.count u + (if u = v ∧ (list_insert_or_append heap l v).1.isSome = true then 1 else 0) := by
  by_cases h0 : 0 ∈ l
  · obtain ⟨pre, post, h1, h2, h3⟩ := list_insert_scan_split l v h0
    simp only [list_insert_or_append, h3, Option.isSome_some, and_true]
    rw [h1]
    simp only [List.count_append, List.count_cons]
    have : ¬ ((0 : Nat) == u) = true := by simp; exact fun e => hu e.symm
    by_cases e : u = v
    · subst e; simp [this]; omega
    · have e2 : ¬ (v == u) = true := by simp; exact fun x => e x.symm
      simp [this, e, e2]
  · simp only [list_insert_or_append, list_insert_scan_none l v h0, list_append_eq]
    by_cases hc : (calloc heap).1 = true
    · simp only [hc, if_true, Option.isSome_some, and_true, List.count_cons]
      by_cases e : u = v
      · subst e; simp
      · have e2 : ¬ (v == u) = true := by simp; exact fun x => e x.symm
        simp [e, e2]
    · simp [hc]

theorem list_insert_or_append_heap (heap : List Bool) (l : hp_list) (v : Nat) :
    (list_insert_or_append heap l v).2.2 = heap ∨
      (list_insert_or_append heap l v).2.2 = (calloc heap).2 := by
  by_cases h0 : 0 ∈ l
  · obtain ⟨pre, post, h1, h2, h3⟩ := list_insert_scan_split l v h0
    left; simp [list_insert_or_append, h3]
  · right
    simp only [list_insert_or_append, list_insert_scan_none l v h0, list_append_eq]
    split <;> rfl

theorem count_eq_zero_iff_contains (l : hp_list) (v : Nat) :
    l.count v = 0 ↔ list_contains l v = false := by
  rw [list_contains_false_iff, List.count_eq_zero]

theorem drop_of_contains (w : World) (v : Nat) (h : list_contains w.dom.pointers v = true) :
    drop w v = .ret () (w.setPointers (list_remove w.dom.pointers v).2) := by
  have h1 : (list_remove w.dom.pointers v).1 = true := by rw [list_remove_fst]; exact h
  simp only [drop]
  cases hr : list_remove w.dom.pointers v with
  | mk b l =>
    rw [hr] at h1
    simp at h1
    simp [h1]

theorem list_remove_count_le (l : hp_list) (v u : Nat) (hu : u ≠ 0) :
    (list_remove l v).2.count u ≤ l.count u := by
  by_cases e : u = v
  · subst e
    by_cases h : u ∈ l
    · have := list_remove_count l u h hu; omega
    · rw [list_remove_not_mem l u h]
  · rw [list_remove_count_ne l v u e hu]

theorem drop_all (fuel : Nat) (v : Nat) (hv : v ≠ 0) :
    ∀ (n : Nat) (w : World), w.dom.pointers.count v = n →
      ∃ w2, run fuel w (List.replicate n (Call.drop v)) = .ret () w2 ∧
        w2.dom.pointers.count v = 0 ∧
        (∀ u, u ≠ 0 → w2.dom.pointers.count u ≤ w.dom.pointers.count u) ∧
        w2.dom.retired = w.dom.retired ∧ w2.mem = w.mem ∧ w2.heap = w.heap ∧
        w2.freed = w.freed := by
  intro n
  induction n with
  | zero =>
    intro w h
    exact ⟨w, rfl, h, fun _ _ => Nat.le_refl _, rfl, rfl, rfl, rfl⟩
  | succ n ih =>
    intro w h
    have hmem : v ∈ w.dom.pointers := List.count_pos_iff.1 (by omega)
    have hc : list_contains w.dom.pointers v = true := (list_contains_iff _ _).2 hmem
    have hcount := list_remove_count w.dom.pointers v hmem hv
    obtain ⟨w2, h1, h2, h3, h4, h5, h6, h7⟩ :=
      ih (w.setPointers (list_remove w.dom.pointers v).2)
        (by simp only [World.setPointers]; omega)
    refine ⟨w2, ?_, h2, ?_, h4, h5, h6, h7⟩
    · simp only [List.replicate_succ, run, exec, drop_of_contains w v hc]
      exact h1
    · intro u hu
      exact Nat.le_trans (h3 u hu) (list_remove_count_le _ v u hu)

theorem spec_sweep_freed_count (prot rs : hp_list) (v : Nat)
    (h : reclaimable prot v = true) :
    ((spec_sweep_freed prot rs).map Dealloc.val).count v = rs.count v := by
  have hm : (spec_sweep_freed prot rs).map Dealloc.val = rs.filter (reclaimable prot) := by
    simp [spec_sweep_freed, List.map_map, Function.comp_def]
  rw [hm, List.count_filter h]

theorem spec_sweep_retired_not_mem (prot rs : hp_list) (v : Nat)
    (h : reclaimable prot v = true) : v ∉ spec_sweep_retired prot rs := by
  intro hm
  have hv0 : v ≠ 0 := by
    intro e; rw [e] at h; simp [reclaimable] at h
  simp only [spec_sweep_retired, List.mem_map] at hm
  obtain ⟨x, _, hx⟩ := hm
  by_cases hr : reclaimable prot x = true
  · rw [if_pos hr] at hx; exact hv0 hx.symm
  · rw [if_neg hr] at hx; rw [hx] at hr; exact hr h

/-- Claim C5, amended.  Let a non-zero `V` be held by a protected slot and by the
location, let the retired list have room (an empty slot, or the next allocation
succeeds) and not hold `V` already.  Then `swap` with `DEFER_DEALLOC` returns,
stores the new value, invokes no deallocator and leaves `V` in the retired
list.  After as many `drop(V)` as there were protected slots holding `V`, all
of which return, no protected slot holds `V`, and the next `cleanup` returns,
with flags `DEFER_DEALLOC`, or with flags `0` provided no other retired value is
still protected; it has invoked the deallocator on `V` exactly once and `V` is
gone from the retired list. -/
theorem deferred_swap_then_cleanup (fuel : Nat) (w : World) (prot_ptr new_val V : Nat)
    (flags : Int)
    (hV : w.mem[prot_ptr]? = some V) (hnz : V ≠ 0)
    (hprot : list_contains w.dom.pointers V = true)
    (hroom : list_contains w.dom.retired 0 = true ∨ (calloc w.heap).1 = true)
    (hnew : list_contains w.dom.retired V = false)
    (hflags : flags = DEFER_DEALLOC ∨
      (flags = 0 ∧ ∀ u ∈ w.dom.retired, u ≠ 0 → list_contains w.dom.pointers u = false)) :
    ∃ w1 w2 w3,
      swap fuel w prot_ptr new_val DEFER_DEALLOC = .ret () w1 ∧
      w1.mem = w.mem.set prot_ptr new_val ∧ w1.freed = w.freed ∧
      list_contains w1.dom.retired V = true ∧
      run fuel w1 (List.replicate (w.dom.pointers.count V) (Call.drop V)) = .ret () w2 ∧
      list_contains w2.dom.pointers V = false ∧
      cleanup fuel w2 flags = .ret () w3 ∧
      (w3.freed.map Dealloc.val).count V = (w.freed.map Dealloc.val).count V + 1 ∧
      list_contains w3.dom.retired V = false := by
  -- the swap
  obtain ⟨node, rs, heap1, hins, _, hmemV⟩ :=
    list_insert_or_append_some w.heap w.dom.retired V hroom
  have hcountV : rs.count V = 1 := by
    have h := list_insert_or_append_count w.heap w.dom.retired V V hnz
    rw [hins] at h
    have h0 : w.dom.retired.count V = 0 := (count_eq_zero_iff_contains _ _).2 hnew
    simpa [h0] using h
  have hother : ∀ u, u ≠ 0 → u ≠ V → rs.count u = w.dom.retired.count u := by
    intro u hu huV
    have h := list_insert_or_append_count w.heap w.dom.retired V u hu
    rw [hins] at h
    simpa [huV] using h
  let w1 : World :=
    { World.setRetired { w with mem := w.mem.set prot_ptr new_val } rs with heap := heap1 }
  have hswap : swap fuel w prot_ptr new_val DEFER_DEALLOC = .ret () w1 := by
    simp only [swap, hV]
    rw [cleanup_ptr_deferred _ _ _ _ land_defer]
    simp [hprot, hins, w1, World.setRetired]
  -- the drops
  obtain ⟨w2, hrun, hc0, hle, hret, _, _, hfr⟩ :=
    drop_all fuel V hnz (w.dom.pointers.count V) w1 rfl
  have hunprot : list_contains w2.dom.pointers V = false :=
    (count_eq_zero_iff_contains _ _).1 hc0
  have hrs : w2.dom.retired = rs := hret
  -- the sweep
  have hrec : reclaimable w2.dom.pointers V = true := by simp [reclaimable, hnz, hunprot]
  have hcond : Int.land flags DEFER_DEALLOC ≠ 0 ∨
      ∀ x ∈ w2.dom.retired, x ≠ 0 → list_contains w2.dom.pointers x = false := by
    rcases hflags with hf | ⟨_, hf⟩
    · left; rw [hf]; exact land_defer
    · right
      intro x hx hx0
      by_cases hxV : x = V
      · rw [hxV]; exact hunprot
      · rw [hrs] at hx
        have hxin : x ∈ w.dom.retired := by
          have h1 : 0 < rs.count x := List.count_pos_iff.2 hx
          rw [hother x hx0 hxV] at h1
          exact List.count_pos_iff.1 h1
        have h2 : w.dom.pointers.count x = 0 :=
          (count_eq_zero_iff_contains _ _).2 (hf x hxin hx0)
        have h3 := hle x hx0
        have h4 : w1.dom.pointers.count x = 0 := h2
        exact (count_eq_zero_iff_contains _ _).1 (by omega)
  refine ⟨w1, w2, spec_sweep_from w2 [] w2.dom.retired, hswap, rfl, rfl, ?_, hrun, hunprot,
    cleanup_sweep fuel w2 flags hcond, ?_, ?_⟩
  · exact (list_contains_iff _ _).2 hmemV
  · simp only [spec_sweep_from, List.map_append, List.count_append]
    rw [spec_sweep_freed_count _ _ _ hrec, hrs, hcountV, hfr]
    rfl
  · rw [list_contains_false_iff]
    simpa [spec_sweep_from] using spec_sweep_retired_not_mem w2.dom.pointers w2.dom.retired V hrec

theorem deferred_swap_then_cleanup_witness :
    ∃ w1 w2 w3,
      swap 0 ⟨⟨[5, 9, 5], [3, 0]⟩, [5, 8], [], []⟩ 0 7 DEFER_DEALLOC = .ret () w1 ∧
      w1.mem = ([5, 8] : List Nat).set 0 7 ∧ w1.freed = [] ∧
      list_contains w1.dom.retired 5 = true ∧
      run 0 w1 (List.replicate (([5, 9, 5] : hp_list).count 5) (Call.drop 5)) = .ret () w2 ∧
      list_contains w2.dom.pointers 5 = false ∧
      cleanup 0 w2 0 = .ret () w3 ∧
      (w3.freed.map Dealloc.val).count 5 = (([] : List Dealloc).map Dealloc.val).count 5 + 1 ∧
      list_contains w3.dom.retired 5 = false :=
  deferred_swap_then_cleanup 0 ⟨⟨[5, 9, 5], [3, 0]⟩, [5, 8], [], []⟩ 0 7 5 0
    (by decide) (by decide) (by decide) (by decide) (by decide) (Or.inr ⟨rfl, by decide⟩)

/-- Claim C5 fails as stated, in three ways.  (1) With no empty retired slot and a
failing allocation, the deferred `swap` returns with `5` absent from the
retired list.  (2) When the retired list already holds `5`, the sweep after the
`drop` invokes the deallocator on `5` twice.  (3) When another retired value,
`9`, is still protected, `cleanup` with flags `0` frees `5` and then spins on
`9`: it never returns, whatever the fuel. -/
theorem deferred_swap_then_cleanup_fails :
    (swap 1 ⟨⟨[5], []⟩, [5], [], []⟩ 0 7 DEFER_DEALLOC = .ret () ⟨⟨[5], []⟩, [7], [], []⟩) ∧
    (run 1 ⟨⟨[5], [5]⟩, [5], [true], []⟩
        [.swap 0 7 DEFER_DEALLOC, .drop 5, .cleanup DEFER_DEALLOC] =
      .ret () ⟨⟨[0], [0, 0]⟩, [7], [], [⟨5, [0]⟩, ⟨5, [0]⟩]⟩) ∧
    (run 1 ⟨⟨[5, 9], [9]⟩, [5], [true], []⟩ [.swap 0 7 DEFER_DEALLOC, .drop 5] =
      .ret () ⟨⟨[0, 9], [5, 9]⟩, [7], [], []⟩) ∧
    ¬ ∃ fuel, (cleanup fuel ⟨⟨[0, 9], [5, 9]⟩, [7], [], []⟩ 0).returned = true := by
  refine ⟨by decide, by decide, by decide, ?_⟩
  rintro ⟨fuel, h⟩
  have hs : spin fuel ⟨⟨[0, 9], [0, 9]⟩, [7], [], [⟨5, [0, 9]⟩]⟩ 9 =
      .hang ⟨⟨[0, 9], [0, 9]⟩, [7], [], [⟨5, [0, 9]⟩]⟩ :=
    spin_blocked fuel _ 9 (by decide)
  simp [cleanup, cleanup_loop, list_contains, remove_and_free, list_remove, deallocator,
    World.setRetired, land_zero, hs, Outcome.returned] at h

theorem FreedExt.refl (w : World) : FreedExt w w := ⟨[], by simp, by simp⟩

theorem FreedExt.of_eq {w w1 : World} (h : w1.freed = w.freed) : FreedExt w w1 :=
  ⟨[], by simp [h], by simp⟩

theorem FreedExt.trans {a b c : World} (h1 : FreedExt a b) (h2 : FreedExt b c) :
    FreedExt a c := by
  obtain ⟨n1, e1, s1⟩ := h1
  obtain ⟨n2, e2, s2⟩ := h2
  refine ⟨n1 ++ n2, by rw [e2, e1, List.append_assoc], ?_⟩
  intro e he
  rcases List.mem_append.1 he with h | h
  · exact s1 e h
  · exact s2 e h

theorem FreedExt.dealloc (w : World) (ptr : Nat)
    (h : list_contains w.dom.pointers ptr = false) : FreedExt w (deallocator w ptr) :=
  ⟨[⟨ptr, w.dom.pointers⟩], rfl, by simpa using h⟩

theorem load_world (fuel : Nat) (w : World) (prot_ptr : Nat) :
    (load fuel w prot_ptr).world = w ∨
      ∃ val, w.mem[prot_ptr]? = some val ∧
        (load fuel w prot_ptr).world =
          { w.setPointers (list_insert_or_append w.heap w.dom.pointers val).2.1 with
            heap := (list_insert_or_append w.heap w.dom.pointers val).2.2 } := by
  cases fuel with
  | zero => exact Or.inl rfl
  | succ n =>
    cases hval : w.mem[prot_ptr]? with
    | none => left; simp [load, hval, Outcome.world]
    | some val =>
      right
      refine ⟨val, rfl, ?_⟩
      rw [load, hval]
      simp only []
      cases hins : list_insert_or_append w.heap w.dom.pointers val with
      | mk node rest =>
        cases rest with
        | mk ps heap1 =>
          cases node with
          | none => simp [Outcome.world]
          | some nd => simp [World.setPointers, hval, Outcome.world]

theorem cleanup_ptr_world (fuel : Nat) (w : World) (ptr : Nat) (flags : Int) :
    (list_contains w.dom.pointers ptr = false ∧
        (cleanup_ptr fuel w ptr flags).world = deallocator w ptr) ∨
      (cleanup_ptr fuel w ptr flags).world =
        { w.setRetired (list_insert_or_append w.heap w.dom.retired ptr).2.1 with
          heap := (list_insert_or_append w.heap w.dom.retired ptr).2.2 } ∨
      (cleanup_ptr fuel w ptr flags).world = w := by
  cases hc : list_contains w.dom.pointers ptr with
  | false => left; simp [cleanup_ptr, hc, Outcome.world]
  | true =>
    right
    by_cases hf : Int.land flags DEFER_DEALLOC ≠ 0
    · left; simp [cleanup_ptr_deferred _ _ _ _ hf, hc, Outcome.world]
    · right; simp [cleanup_ptr, hc, hf, spin_blocked fuel w ptr hc, Outcome.world]

theorem cleanup_loop_invariant (Inv : World → Prop)
    (hstep : ∀ w ptr, Inv w → ptr ≠ 0 → list_contains w.dom.pointers ptr = false →
      ptr ∈ w.dom.retired → Inv (remove_and_free w ptr))
    (fuel : Nat) (flags : Int) :
    ∀ (steps node : Nat) (w : World), Inv w →
      Inv (cleanup_loop fuel flags steps node w).world := by
  intro steps
  induction steps with
  | zero =>
    intro node w hw
    rw [cleanup_loop]
    cases w.dom.retired[node]? <;> exact hw
  | succ s ih =>
    intro node w hw
    rw [cleanup_loop]
    cases hnode : w.dom.retired[node]? with
    | none => exact hw
    | some ptr =>
      simp only []
      have hmem : ptr ∈ w.dom.retired := List.getElem?_mem hnode
      by_cases h0 : ptr = 0
      · rw [if_pos h0]; exact ih _ w hw
      · rw [if_neg h0]
        cases hc : list_contains w.dom.pointers ptr with
        | false =>
          simp only [Bool.not_false, if_true]
          exact ih _ _ (hstep w ptr hw h0 hc hmem)
        | true =>
          simp only [Bool.not_true, Bool.false_eq_true, if_false]
          by_cases hf : Int.land flags DEFER_DEALLOC ≠ 0
          · rw [if_neg (not_not.2 hf)]; exact ih _ w hw
          · rw [if_pos hf, spin_blocked fuel w ptr hc]; exact hw

theorem remove_and_free_freedExt (w : World) (ptr : Nat)
    (h : list_contains w.dom.pointers ptr = false) : FreedExt w (remove_and_free w ptr) := by
  simp only [remove_and_free]
  cases hr : list_remove w.dom.retired ptr with
  | mk b rs =>
    cases b with
    | true =>
      have h1 : FreedExt w (w.setRetired rs) := FreedExt.of_eq rfl
      exact FreedExt.trans h1 (FreedExt.dealloc (w.setRetired rs) ptr h)
    | false => exact FreedExt.of_eq rfl

theorem exec_freedExt (fuel : Nat) (w : World) (c : Call) : FreedExt w (exec fuel w c).world := by
  cases c with
  | load prot_ptr =>
    have hw : (exec fuel w (.load prot_ptr)).world = (load fuel w prot_ptr).world := by
      simp only [exec]; cases load fuel w prot_ptr <;> rfl
    rw [hw]
    rcases load_world fuel w prot_ptr with h | ⟨val, _, h⟩
    · rw [h]; exact FreedExt.refl w
    · rw [h]; exact FreedExt.of_eq rfl
  | drop safe_val =>
    simp only [exec, drop]
    cases hr : list_remove w.dom.pointers safe_val with
    | mk b ps => cases b <;> exact FreedExt.of_eq rfl
  | swap prot_ptr new_val flags =>
    simp only [exec, swap]
    cases hval : w.mem[prot_ptr]? with
    | none => exact FreedExt.refl w
    | some old =>
      simp only []
      have hm : FreedExt w { w with mem := w.mem.set prot_ptr new_val } := FreedExt.of_eq rfl
      refine FreedExt.trans hm ?_
      rcases cleanup_ptr_world fuel { w with mem := w.mem.set prot_ptr new_val } old flags with
        ⟨hc, h⟩ | h | h
      · rw [h]; exact FreedExt.dealloc _ old hc
      · rw [h]; exact FreedExt.of_eq rfl
      · rw [h]; exact FreedExt.refl _
  | cleanup flags =>
    simp only [exec, cleanup]
    exact cleanup_loop_invariant (FreedExt w)
      (fun w1 ptr h1 _ hc _ => FreedExt.trans h1 (remove_and_free_freedExt w1 ptr hc))
      fuel flags _ _ w (FreedExt.refl w)

theorem run_freedExt (fuel : Nat) (calls : List Call) :
    ∀ w, FreedExt w (run fuel w calls).world := by
  induction calls with
  | nil => intro w; exact FreedExt.refl w
  | cons c cs ih =>
    intro w
    have h := exec_freedExt fuel w c
    rw [run]
    cases he : exec fuel w c with
    | ret u w1 => rw [he] at h; exact FreedExt.trans h (ih w1)
    | hang w1 => rw [he] at h; exact h
    | undef w1 => rw [he] at h; exact h

/-- Claim C2.  From every state and for every sequence of `load`, `drop`, `swap`
and `cleanup` calls with any flags, whether the run returns, hangs or reaches
undefined behaviour: every deallocator invocation made during the run finds
its argument in no slot of the protected list at the moment of the call. -/
theorem deallocator_only_on_unprotected (fuel : Nat) (w : World) (calls : List Call) :
    ∃ new, (run fuel w calls).world.freed = w.freed ++ new ∧
      ∀ e ∈ new, list_contains e.prot e.val = false :=
  run_freedExt fuel calls w

theorem deallocator_only_on_unprotected_witness :
    ∃ new, (run 1 ⟨⟨[], []⟩, [5, 6], [true, true], []⟩
        [.load 0, .swap 0 7 DEFER_DEALLOC, .swap 1 8 0, .drop 5, .cleanup 0]).world.freed =
        [] ++ new ∧
      ∀ e ∈ new, list_contains e.prot e.val = false :=
  deallocator_only_on_unprotected 1 ⟨⟨[], []⟩, [5, 6], [true, true], []⟩
    [.load 0, .swap 0 7 DEFER_DEALLOC, .swap 1 8 0, .drop 5, .cleanup 0]

theorem count_set_add (l : List Nat) (x v old : Nat) :
    ∀ p, l[p]? = some old →
      (l.set p x).count v + (if old = v then 1 else 0) =
        l.count v + (if x = v then 1 else 0) := by
  induction l with
  | nil => intro p h; simp at h
  | cons y rest ih =>
    intro p h
    cases p with
    | zero =>
      simp at h
      subst h
      simp only [List.set_cons_zero, List.count_cons, beq_iff_eq]
      omega
    | succ q =>
      simp at h
      have := ih q h
      simp only [List.set_cons_succ, List.count_cons, beq_iff_eq]
      omega

theorem freedVals_deallocator (w : World) (ptr v : Nat) :
    (deallocator w ptr).freedVals.count v = w.freedVals.count v + (if ptr = v then 1 else 0) := by
  simp [World.freedVals, deallocator, List.count_cons, List.count_append]

theorem Accounted.weaken {w : World} {S T : List Nat} (h : Accounted w S)
    (hle : ∀ v, T.count v ≤ S.count v) : Accounted w T := by
  intro v hv
  have := h v hv
  have := hle v
  exact ⟨by omega, (h v hv).2⟩

theorem remove_and_free_accounted (w : World) (S : List Nat) (ptr : Nat)
    (hw : Accounted w S) (h0 : ptr ≠ 0)
    (hc : list_contains w.dom.pointers ptr = false) (hmem : ptr ∈ w.dom.retired) :
    Accounted (remove_and_free w ptr) S := by
  obtain ⟨pre, post, h1, h2, h3⟩ := list_remove_split w.dom.retired ptr hmem
  have hcnt := list_remove_count w.dom.retired ptr hmem h0
  have hrf : remove_and_free w ptr =
      deallocator (w.setRetired (list_remove w.dom.retired ptr).2) ptr := by
    simp [remove_and_free, h3]
  intro v hv
  have hwv := hw v hv
  rw [hrf, freedVals_deallocator]
  have hP : (deallocator (w.setRetired (list_remove w.dom.retired ptr).2) ptr).dom.pointers =
      w.dom.pointers := rfl
  have hM : (deallocator (w.setRetired (list_remove w.dom.retired ptr).2) ptr).mem = w.mem := rfl
  have hR : (deallocator (w.setRetired (list_remove w.dom.retired ptr).2) ptr).dom.retired =
      (list_remove w.dom.retired ptr).2 := rfl
  have hF : (w.setRetired (list_remove w.dom.retired ptr).2).freedVals = w.freedVals := rfl
  rw [hP, hM, hR, hF]
  by_cases e : ptr = v
  · subst e
    rw [if_pos rfl]
    exact ⟨by omega, fun _ => (count_eq_zero_iff_contains _ _).2 hc⟩
  · rw [if_neg e]
    rw [list_remove_count_ne _ ptr v (fun x => e x.symm) hv]
    exact ⟨by omega, fun h => hwv.2 (by omega)⟩

theorem stores_count_cons_le (c : Call) (cs : List Call) (v : Nat) :
    (stores cs).count v ≤ (stores (c :: cs)).count v := by
  cases c <;> simp [stores, List.count_cons]

theorem exec_accounted (fuel : Nat) (w : World) (c : Call) (cs : List Call) (T : List Nat)
    (hw : Accounted w (stores (c :: cs) ++ T)) :
    Accounted (exec fuel w c).world (stores cs ++ T) := by
  have hweak : Accounted w (stores cs ++ T) :=
    hw.weaken (fun v => by
      simp only [List.count_append]
      have := stores_count_cons_le c cs v
      omega)
  cases c with
  | load prot_ptr =>
    have hwd : (exec fuel w (.load prot_ptr)).world = (load fuel w prot_ptr).world := by
      simp only [exec]; cases load fuel w prot_ptr <;> rfl
    rw [hwd]
    rcases load_world fuel w prot_ptr with h | ⟨val, hval, h⟩
    · rw [h]; exact hweak
    · rw [h]
      intro v hv
      have hwv := hweak v hv
      refine ⟨hwv.1, fun hF => ?_⟩
      have hcnt := list_insert_or_append_count w.heap w.dom.pointers val v hv
      have hP := hwv.2 hF
      have hne : v ≠ val := by
        intro e
        have : 0 < w.mem.count v := List.count_pos_iff.2 (e ▸ List.getElem?_mem hval)
        have hF' : 1 ≤ w.freedVals.count v := hF
        omega
      simp only [World.setPointers]
      rw [hcnt, hP]
      simp [hne]
  | drop safe_val =>
    have hwd : (exec fuel w (.drop safe_val)).world =
        w.setPointers (list_remove w.dom.pointers safe_val).2 := by
      simp only [exec, drop]
      cases hr : list_remove w.dom.pointers safe_val with
      | mk b ps => cases b <;> rfl
    rw [hwd]
    intro v hv
    have hwv := hweak v hv
    refine ⟨hwv.1, fun hF => ?_⟩
    have := list_remove_count_le w.dom.pointers safe_val v hv
    have := hwv.2 hF
    simp only [World.setPointers]
    omega
  | cleanup flags =>
    simp only [exec, cleanup]
    exact cleanup_loop_invariant (fun x => Accounted x (stores cs ++ T))
      (fun w1 ptr h1 h0 hc hm => remove_and_free_accounted w1 _ ptr h1 h0 hc hm)
      fuel flags _ _ w hweak
  | swap prot_ptr new_val flags =>
    simp only [exec, swap]
    cases hval : w.mem[prot_ptr]? with
    | none => exact hweak
    | some old =>
      simp only []
      -- counts after the exchange, with `old` in hand
      have hex : ∀ v, v ≠ 0 →
          (w.mem.set prot_ptr new_val).count v + (stores cs ++ T).count v +
            (if old = v then 1 else 0) + w.dom.retired.count v + w.freedVals.count v ≤ 1 := by
        intro v hv
        have h1 := (hw v hv).1
        have h2 := count_set_add w.mem new_val v old prot_ptr hval
        simp only [stores, List.cons_append, List.count_cons, beq_iff_eq] at h1
        omega
      rcases cleanup_ptr_world fuel { w with mem := w.mem.set prot_ptr new_val } old flags with
        ⟨hc, h⟩ | h | h
      · rw [h]
        intro v hv
        have h1 := hex v hv
        rw [freedVals_deallocator]
        refine ⟨?_, fun hF => ?_⟩
        · have hF0 : ({ w with mem := w.mem.set prot_ptr new_val } : World).freedVals =
              w.freedVals := rfl
          have hM : (deallocator { w with mem := w.mem.set prot_ptr new_val } old).mem =
              w.mem.set prot_ptr new_val := rfl
          have hR : (deallocator { w with mem := w.mem.set prot_ptr new_val } old).dom.retired =
              w.dom.retired := rfl
          rw [hF0, hM, hR]; omega
        · have hP : (deallocator { w with mem := w.mem.set prot_ptr new_val } old).dom.pointers =
              w.dom.pointers := rfl
          rw [hP]
          by_cases e : old = v
          · subst e; exact (count_eq_zero_iff_contains _ _).2 hc
          · rw [if_neg e] at hF
            exact (hw v hv).2 hF
      · rw [h]
        intro v hv
        have h1 := hex v hv
        have hcnt := list_insert_or_append_count w.heap w.dom.retired old v hv
        refine ⟨?_, fun hF => (hw v hv).2 hF⟩
        simp only [World.setRetired]
        have hF0 : ({ w with mem := w.mem.set prot_ptr new_val } : World).freedVals =
            w.freedVals := rfl
        show (w.mem.set prot_ptr new_val).count v + (stores cs ++ T).count v +
          (list_insert_or_append w.heap w.dom.retired old).2.1.count v + w.freedVals.count v ≤ 1
        rw [hcnt]
        by_cases e : old = v
        · rw [if_pos e] at h1
          split <;> omega
        · have e2 : ¬ (v = old ∧ (list_insert_or_append w.heap w.dom.retired old).1.isSome = true) :=
            fun x => e x.1.symm
          rw [if_neg e2]
          omega
      · rw [h]
        intro v hv
        have h1 := hex v hv
        refine ⟨?_, fun hF => (hw v hv).2 hF⟩
        show (w.mem.set prot_ptr new_val).count v + (stores cs ++ T).count v +
          w.dom.retired.count v + w.freedVals.count v ≤ 1
        omega

theorem run_accounted (fuel : Nat) (calls : List Call) (T : List Nat) :
    ∀ w, Accounted w (stores calls ++ T) → Accounted (run fuel w calls).world T := by
  induction calls with
  | nil => intro w h; simpa [stores, run, Outcome.world] using h
  | cons c cs ih =>
    intro w h
    have h1 := exec_accounted fuel w c cs T h
    have hdrop : ∀ x, Accounted x (stores cs ++ T) → Accounted x T := fun x hx =>
      hx.weaken (fun v => by simp [List.count_append])
    rw [run]
    cases he : exec fuel w c with
    | ret u w1 => rw [he] at h1; exact ih w1 h1
    | hang w1 => rw [he] at h1; exact hdrop _ h1
    | undef w1 => rw [he] at h1; exact hdrop _ h1

theorem run_append (fuel : Nat) (cs1 cs2 : List Call) :
    ∀ w, run fuel w (cs1 ++ cs2) =
      match run fuel w cs1 with
      | .ret _ w1 => run fuel w1 cs2
      | .hang w1 => .hang w1
      | .undef w1 => .undef w1 := by
  induction cs1 with
  | nil => intro w; rfl
  | cons c cs ih =>
    intro w
    simp only [List.cons_append, run]
    cases exec fuel w c with
    | ret u w1 => exact ih w1
    | hang w1 => rfl
    | undef w1 => rfl

theorem run_append_freedExt (fuel : Nat) (cs1 cs2 : List Call) (w : World) :
    FreedExt (run fuel w cs1).world (run fuel w (cs1 ++ cs2)).world := by
  rw [run_append]
  cases h : run fuel w cs1 with
  | ret u w1 => exact run_freedExt fuel cs2 w1
  | hang w1 => exact FreedExt.refl _
  | undef w1 => exact FreedExt.refl _

/-- Claim C9, amended.  Start from a fresh domain and run `calls ++ more`, where
every non-zero value occurs at most once among the initial memory cells and the
values stored by the swaps.  Then the deallocator is invoked at most once on
each non-zero value `v`; and if `v` has been handed to the deallocator by the
end of `calls`, then after `more` no protected slot, no retired slot and no
memory cell holds `v`. -/
theorem no_double_free (fuel : Nat) (mem : List Nat) (heap : List Bool) (w0 : World)
    (calls more : List Call) (v : Nat)
    (hdom : domain_new mem heap = some w0)
    (huniq : ((mem ++ stores (calls ++ more)).filter (fun x => x != 0)).Nodup)
    (hv : v ≠ 0) :
    (run fuel w0 (calls ++ more)).world.freedVals.count v ≤ 1 ∧
      (v ∈ (run fuel w0 calls).world.freedVals →
        v ∉ (run fuel w0 (calls ++ more)).world.dom.pointers ∧
        v ∉ (run fuel w0 (calls ++ more)).world.dom.retired ∧
        v ∉ (run fuel w0 (calls ++ more)).world.mem) := by
  have hw0 : w0 = ⟨⟨[], []⟩, mem, (calloc heap).2, []⟩ := by
    simp only [domain_new] at hdom
    cases hc : calloc heap with
    | mk b h1 =>
      rw [hc] at hdom
      cases b with
      | false => simp at hdom
      | true => simp at hdom; exact hdom.symm
  have hinit : Accounted w0 (stores (calls ++ more) ++ []) := by
    intro u hu
    have h1 := List.nodup_iff_count_le_one.1 huniq u
    rw [List.count_filter (by simpa using hu)] at h1
    rw [hw0]
    simp only [List.count_append] at h1
    simp [World.freedVals]
    omega
  have hfin := run_accounted fuel (calls ++ more) [] w0 hinit v hv
  simp only [List.count_nil, Nat.add_zero] at hfin
  refine ⟨by omega, fun hin => ?_⟩
  obtain ⟨new, hnew, _⟩ := run_append_freedExt fuel calls more w0
  have hin2 : v ∈ (run fuel w0 (calls ++ more)).world.freedVals := by
    simp only [World.freedVals, hnew, List.map_append, List.mem_append]
    exact Or.inl hin
  have hpos : 1 ≤ (run fuel w0 (calls ++ more)).world.freedVals.count v :=
    List.count_pos_iff.2 hin2
  refine ⟨?_, ?_, ?_⟩
  · exact List.count_eq_zero.1 (hfin.2 hpos)
  · exact List.count_eq_zero.1 (by omega)
  · exact List.count_eq_zero.1 (by omega)

theorem no_double_free_witness :
    (run 1 ⟨⟨[], []⟩, [5], [true, true], []⟩
        ([.load 0, .swap 0 7 DEFER_DEALLOC, .drop 5, .cleanup DEFER_DEALLOC] ++
          [.load 0, .swap 0 8 0])).world.freedVals.count 5 ≤ 1 ∧
      5 ∉ (run 1 ⟨⟨[], []⟩, [5], [true, true], []⟩
        ([.load 0, .swap 0 7 DEFER_DEALLOC, .drop 5, .cleanup DEFER_DEALLOC] ++
          [.load 0, .swap 0 8 0])).world.dom.pointers ∧
      5 ∉ (run 1 ⟨⟨[], []⟩, [5], [true, true], []⟩
        ([.load 0, .swap 0 7 DEFER_DEALLOC, .drop 5, .cleanup DEFER_DEALLOC] ++
          [.load 0, .swap 0 8 0])).world.dom.retired ∧
      5 ∉ (run 1 ⟨⟨[], []⟩, [5], [true, true], []⟩
        ([.load 0, .swap 0 7 DEFER_DEALLOC, .drop 5, .cleanup DEFER_DEALLOC] ++
          [.load 0, .swap 0 8 0])).world.mem :=
  ⟨(no_double_free 1 [5] [true, true, true] ⟨⟨[], []⟩, [5], [true, true], []⟩
      [.load 0, .swap 0 7 DEFER_DEALLOC, .drop 5, .cleanup DEFER_DEALLOC]
      [.load 0, .swap 0 8 0] 5 (by decide) (by decide) (by decide)).1,
   (no_double_free 1 [5] [true, true, true] ⟨⟨[], []⟩, [5], [true, true], []⟩
      [.load 0, .swap 0 7 DEFER_DEALLOC, .drop 5, .cleanup DEFER_DEALLOC]
      [.load 0, .swap 0 8 0] 5 (by decide) (by decide) (by decide)).2 (by decide)⟩

/-- Claim C9 fails as stated, for the value `0`.  On a fresh domain whose two
locations hold `0`, with the non-zero values `5` and `6` stored once each, the
two swaps invoke the deallocator on `0` twice; and after a later `load` and
`drop` a protected slot holds `0` again. -/
theorem deallocator_invoked_twice_on_zero :
    domain_new [0, 0] [true, true] = some ⟨⟨[], []⟩, [0, 0], [true], []⟩ ∧
      (([0, 0] ++ stores [.swap 0 5 0, .swap 1 6 0, .load 0, .drop 5]).filter
        (fun x => x != 0)).Nodup ∧
      run 1 ⟨⟨[], []⟩, [0, 0], [true], []⟩ [.swap 0 5 0, .swap 1 6 0] =
        .ret () ⟨⟨[], []⟩, [5, 6], [true], [⟨0, []⟩, ⟨0, []⟩]⟩ ∧
      (run 1 ⟨⟨[], []⟩, [0, 0], [true], []⟩
        [.swap 0 5 0, .swap 1 6 0]).world.freedVals.count 0 = 2 ∧
      run 1 ⟨⟨[], []⟩, [0, 0], [true], []⟩ [.swap 0 5 0, .swap 1 6 0, .load 0, .drop 5] =
        .ret () ⟨⟨[0], []⟩, [5, 6], [], [⟨0, []⟩, ⟨0, []⟩]⟩ := by
  decide

theorem list_insert_scan_at (v : Nat) (pre post : hp_list) (h : 0 ∉ pre) :
    list_insert_scan (pre ++ 0 :: post) v = some (pre.length, pre ++ v :: post) := by
  induction pre with
  | nil => simp [list_insert_scan]
  | cons x rest ih =>
    have hx : ¬ x = 0 := fun e => h (by simp [e])
    have hr : 0 ∉ rest := fun e => h (by simp [e])
    simp [list_insert_scan, hx, ih hr]

theorem list_insert_or_append_mem (heap : List Bool) (l : hp_list) (v node : Nat)
    (ps : hp_list) (heap1 : List Bool)
    (h : list_insert_or_append heap l v = (some node, ps, heap1)) :
    ps[node]? = some v ∧ v ∈ ps := by
  have hroom : list_contains l 0 = true ∨ (calloc heap).1 = true := by
    by_cases h0 : 0 ∈ l
    · exact Or.inl ((list_contains_iff l 0).2 h0)
    · right
      rw [list_insert_or_append, list_insert_scan_none l v h0, list_append_eq] at h
      by_contra hc
      rw [if_neg hc] at h
      simp at h
  obtain ⟨node1, ps1, heap2, h1, h2, h3⟩ := list_insert_or_append_some heap l v hroom
  rw [h] at h1
  simp only [Prod.mk.injEq, Option.some.injEq] at h1
  obtain ⟨e1, e2, _⟩ := h1
  rw [e1, e2]
  exact ⟨h2, h3⟩

/-- Claim C11, amended.  `list_contains` only reads the chain (it returns a
boolean and no chain) and is true iff some slot holds `v`.  It is true on the
chain left by a `list_insert_or_append` of `v` that returned a node.  For
non-zero `v` held by exactly one slot, `list_remove` succeeds and
`list_contains` is false on the chain it leaves. -/
theorem list_contains_tracks_slots (l : hp_list) (v : Nat) :
    (list_contains l v = true ↔ ∃ i : Nat, l[i]? = some v) ∧
      (∀ heap node ps heap1, list_insert_or_append heap l v = (some node, ps, heap1) →
        list_contains ps v = true) ∧
      (v ≠ 0 → l.count v = 1 →
        (list_remove l v).1 = true ∧ list_contains (list_remove l v).2 v = false) := by
  refine ⟨?_, ?_, ?_⟩
  · rw [list_contains_iff, List.mem_iff_getElem?]
  · intro heap node ps heap1 h
    exact (list_contains_iff ps v).2 (list_insert_or_append_mem heap l v node ps heap1 h).2
  · intro hv hc
    have hmem : v ∈ l := List.count_pos_iff.1 (by omega)
    have h1 := list_remove_count l v hmem hv
    refine ⟨?_, ?_⟩
    · rw [list_remove_fst]; exact (list_contains_iff l v).2 hmem
    · exact (count_eq_zero_iff_contains _ _).1 (by omega)

theorem list_contains_tracks_slots_witness :
    list_contains [4, 7, 0] 7 = true ∧
      list_contains (list_insert_or_append [] [4, 7, 0] 9).2.1 9 = true ∧
      (list_remove [4, 7, 0] 7).1 = true ∧
      list_contains (list_remove [4, 7, 0] 7).2 7 = false :=
  ⟨(list_contains_tracks_slots [4, 7, 0] 7).1.2 ⟨1, by decide⟩,
   (list_contains_tracks_slots [4, 7, 0] 9).2.1 [] 2 [4, 7, 9] [] (by decide),
   (list_contains_tracks_slots [4, 7, 0] 7).2.2 (by decide) (by decide)⟩

/-- Claim C11 fails as stated, for `v = 0`: the only slot holding `0` is passed to a
successful `list_remove`, and `list_contains` is still true afterwards. -/
theorem list_contains_zero_after_remove :
    ([4, 0] : hp_list).count 0 = 1 ∧ list_remove [4, 0] 0 = (true, [4, 0]) ∧
      list_contains (list_remove [4, 0] 0).2 0 = true := by
  decide

/-- Claim C12.  With the allocation succeeding, `list_insert_or_append` returns a
node and that node holds `v` afterwards.  If the chain is `pre ++ 0 :: post`
with no empty slot in `pre`, the node returned is that first empty slot, the
chain becomes `pre ++ v :: post` (same node count, every other slot unchanged)
and nothing is allocated.  If no slot is empty, the node returned is a new
head whose successor is the old chain, unchanged: the node count grows by
one.  Holds for every `v`, zero included. -/
theorem list_insert_or_append_reuses_or_prepends (heap : List Bool) (l : hp_list) (v : Nat)
    (halloc : (calloc heap).1 = true) :
    (∃ node ps heap1, list_insert_or_append heap l v = (some node, ps, heap1) ∧
        ps[node]? = some v) ∧
      (∀ pre post, l = pre ++ 0 :: post → 0 ∉ pre →
        list_insert_or_append heap l v = (some pre.length, pre ++ v :: post, heap) ∧
        (pre ++ v :: post).length = l.length) ∧
      (list_contains l 0 = false →
        list_insert_or_append heap l v = (some 0, v :: l, (calloc heap).2) ∧
        (v :: l).length = l.length + 1) := by
  refine ⟨?_, ?_, ?_⟩
  · obtain ⟨node, ps, heap1, h1, h2, _⟩ := list_insert_or_append_some heap l v (Or.inr halloc)
    exact ⟨node, ps, heap1, h1, h2⟩
  · intro pre post hl hpre
    subst hl
    simp [list_insert_or_append, list_insert_scan_at v pre post hpre]
  · intro h0
    have h0m : 0 ∉ l := (list_contains_false_iff l 0).1 h0
    simp [list_insert_or_append, list_insert_scan_none l v h0m, list_append_eq, halloc]

theorem list_insert_or_append_reuses_or_prepends_witness :
    list_insert_or_append [true] ([3, 0, 4, 0] : hp_list) 9 = (some 1, [3, 9, 4, 0], [true]) ∧
      list_insert_or_append [true, false] ([3, 4] : hp_list) 9 = (some 0, [9, 3, 4], [false]) :=
  ⟨((list_insert_or_append_reuses_or_prepends [true] [3, 0, 4, 0] 9 (by decide)).2.1
      [3] [4, 0] (by decide) (by decide)).1,
   ((list_insert_or_append_reuses_or_prepends [true, false] [3, 4] 9 (by decide)).2.2
      (by decide)).1⟩

/-- Claim C13.  When the protected list has no empty slot and the allocation of the
new slot fails, `load` returns `0` in its first turn; only the allocator oracle
has moved: the protected list, the retired list, the memory (hence the shared
location) and the deallocator record are unchanged.  Holds for every value at
the location. -/
theorem load_alloc_failure_is_atomic (fuel : Nat) (w : World) (prot_ptr val : Nat)
    (hval : w.mem[prot_ptr]? = some val)
    (hfull : list_contains w.dom.pointers 0 = false)
    (hfail : (calloc w.heap).1 = false) :
    ∃ w1, load (fuel + 1) w prot_ptr = .ret 0 w1 ∧ w1.dom.pointers = w.dom.pointers ∧
      w1.dom.retired = w.dom.retired ∧ w1.mem = w.mem ∧ w1.mem[prot_ptr]? = some val ∧
      w1.freed = w.freed ∧ w1.heap = (calloc w.heap).2 := by
  have h0m : 0 ∉ w.dom.pointers := (list_contains_false_iff _ 0).1 hfull
  have hins : list_insert_or_append w.heap w.dom.pointers val =
      (none, w.dom.pointers, (calloc w.heap).2) := by
    simp [list_insert_or_append, list_insert_scan_none _ val h0m, list_append_eq, hfail]
  refine ⟨{ w.setPointers w.dom.pointers with heap := (calloc w.heap).2 }, ?_,
    rfl, rfl, rfl, hval, rfl, rfl⟩
  simp [load, hval, hins]

theorem load_alloc_failure_is_atomic_witness :
    ∃ w1, load (0 + 1) ⟨⟨[7, 8], [3]⟩, [5], [false, true], [⟨2, []⟩]⟩ 0 = .ret 0 w1 ∧
      w1.dom.pointers = [7, 8] ∧ w1.dom.retired = [3] ∧ w1.mem = [5] ∧
      w1.mem[0]? = some 5 ∧ w1.freed = [⟨2, []⟩] ∧ w1.heap = (calloc [false, true]).2 :=
  load_alloc_failure_is_atomic 0 ⟨⟨[7, 8], [3]⟩, [5], [false, true], [⟨2, []⟩]⟩ 0 5
    (by decide) (by decide) (by decide)

theorem chain_kept_refl (l : hp_list) : chain_kept l l := Or.inl rfl

theorem list_insert_or_append_kept (heap : List Bool) (l : hp_list) (v : Nat) :
    chain_kept l (list_insert_or_append heap l v).2.1 := by
  by_cases h0 : 0 ∈ l
  · obtain ⟨pre, post, h1, h2, h3⟩ := list_insert_scan_split l v h0
    left
    simp only [list_insert_or_append, h3]
    rw [h1]
    simp
  · simp only [list_insert_or_append, list_insert_scan_none l v h0, list_append_eq]
    by_cases hc : (calloc heap).1 = true
    · right; exact ⟨v, by simp [hc]⟩
    · left; simp [hc]

theorem drop_world (w : World) (v : Nat) :
    (drop w v).world = w.setPointers (list_remove w.dom.pointers v).2 := by
  simp only [drop]
  cases hr : list_remove w.dom.pointers v with
  | mk b ps => cases b <;> rfl

theorem cleanup_frame (fuel : Nat) (w : World) (flags : Int) :
    (cleanup fuel w flags).world.dom.pointers = w.dom.pointers ∧
      (cleanup fuel w flags).world.mem = w.mem ∧
      (cleanup fuel w flags).world.heap = w.heap ∧
      (cleanup fuel w flags).world.dom.retired.length = w.dom.retired.length := by
  simp only [cleanup]
  refine cleanup_loop_invariant
    (fun x => x.dom.pointers = w.dom.pointers ∧ x.mem = w.mem ∧ x.heap = w.heap ∧
      x.dom.retired.length = w.dom.retired.length)
    ?_ fuel flags _ _ w ⟨rfl, rfl, rfl, rfl⟩
  intro w1 ptr h1 _ _ _
  have hlen := list_remove_length w1.dom.retired ptr
  simp only [remove_and_free]
  cases hr : list_remove w1.dom.retired ptr with
  | mk b rs =>
    rw [hr] at hlen
    simp only at hlen
    cases b
    · exact ⟨h1.1, h1.2.1, h1.2.2.1, by simpa [World.setRetired, hlen] using h1.2.2.2⟩
    · exact ⟨h1.1, h1.2.1, h1.2.2.1,
        by simpa [deallocator, World.setRetired, hlen] using h1.2.2.2⟩

theorem swap_world (fuel : Nat) (w : World) (prot_ptr new_val : Nat) (flags : Int) :
    (swap fuel w prot_ptr new_val flags).world = w ∨
      ∃ old, w.mem[prot_ptr]? = some old ∧
        ((list_contains w.dom.pointers old = false ∧
            (swap fuel w prot_ptr new_val flags).world =
              deallocator { w with mem := w.mem.set prot_ptr new_val } old) ∨
          (list_contains w.dom.pointers old = true ∧ Int.land flags DEFER_DEALLOC ≠ 0 ∧
            (swap fuel w prot_ptr new_val flags).world =
              { World.setRetired { w with mem := w.mem.set prot_ptr new_val }
                  (list_insert_or_append w.heap w.dom.retired old).2.1 with
                heap := (list_insert_or_append w.heap w.dom.retired old).2.2 }) ∨
          (swap fuel w prot_ptr new_val flags).world =
            { w with mem := w.mem.set prot_ptr new_val }) := by
  cases hval : w.mem[prot_ptr]? with
  | none => left; simp [swap, hval, Outcome.world]
  | some old =>
    right
    refine ⟨old, rfl, ?_⟩
    simp only [swap, hval]
    cases hc : list_contains w.dom.pointers old with
    | false => left; exact ⟨rfl, by simp [cleanup_ptr, hc, Outcome.world]⟩
    | true =>
      right
      by_cases hf : Int.land flags DEFER_DEALLOC ≠ 0
      · left
        refine ⟨rfl, hf, ?_⟩
        rw [cleanup_ptr_deferred _ _ _ _ hf]
        simp [hc, Outcome.world]
      · right
        have hs := spin_blocked fuel { w with mem := w.mem.set prot_ptr new_val } old hc
        simp [cleanup_ptr, hc, hf, hs, Outcome.world]

/-- Claim C16.  Node counts never shrink and nodes never move.  For
`list_insert_or_append`, `load` and `swap` each chain is either of the same
node count as before or the old chain with one new node in front of it; for
`list_remove`, `drop` and `cleanup` the node counts of both chains are exactly
what they were.  This holds for every state, argument, flag word and fuel, and
whether the call returns or not. -/
theorem node_counts_never_shrink (fuel : Nat) (w : World) (heap : List Bool) (l : hp_list)
    (v prot_ptr new_val : Nat) (flags : Int) :
    chain_kept l (list_insert_or_append heap l v).2.1 ∧
      (list_remove l v).2.length = l.length ∧
      (chain_kept w.dom.pointers (load fuel w prot_ptr).world.dom.pointers ∧
        chain_kept w.dom.retired (load fuel w prot_ptr).world.dom.retired) ∧
      ((drop w v).world.dom.pointers.length = w.dom.pointers.length ∧
        (drop w v).world.dom.retired.length = w.dom.retired.length) ∧
      (chain_kept w.dom.pointers (swap fuel w prot_ptr new_val flags).world.dom.pointers ∧
        chain_kept w.dom.retired (swap fuel w prot_ptr new_val flags).world.dom.retired) ∧
      ((cleanup fuel w flags).world.dom.pointers.length = w.dom.pointers.length ∧
        (cleanup fuel w flags).world.dom.retired.length = w.dom.retired.length) := by
  refine ⟨list_insert_or_append_kept heap l v, list_remove_length l v, ?_, ?_, ?_, ?_⟩
  · rcases load_world fuel w prot_ptr with h | ⟨val, _, h⟩
    · rw [h]; exact ⟨chain_kept_refl _, chain_kept_refl _⟩
    · rw [h]
      exact ⟨list_insert_or_append_kept w.heap w.dom.pointers val, chain_kept_refl _⟩
  · rw [drop_world]
    exact ⟨list_remove_length _ _, rfl⟩
  · rcases swap_world fuel w prot_ptr new_val flags with h | ⟨old, _, ⟨_, h⟩ | ⟨_, _, h⟩ | h⟩
    · rw [h]; exact ⟨chain_kept_refl _, chain_kept_refl _⟩
    · rw [h]; exact ⟨chain_kept_refl _, chain_kept_refl _⟩
    · rw [h]
      exact ⟨chain_kept_refl _, list_insert_or_append_kept w.heap w.dom.retired old⟩
    · rw [h]; exact ⟨chain_kept_refl _, chain_kept_refl _⟩
  · have h := cleanup_frame fuel w flags
    exact ⟨by rw [h.1], h.2.2.2⟩

/-- Claim C17.  For a `swap` on a location holding `0`, `cleanup_ptr` tests
`list_contains` of the protected list for `0`, which is true iff some protected
slot is empty.  If none is, the deallocator is invoked on `0` whatever the
flags.  If one is, then with flags `0` the spin loop is entered and the call
does not return whatever the fuel, and with `DEFER_DEALLOC` the call returns
without invoking the deallocator. -/
theorem swap_of_sentinel_not_special (fuel : Nat) (w : World) (prot_ptr new_val : Nat)
    (h0 : w.mem[prot_ptr]? = some 0) :
    (list_contains w.dom.pointers 0 = true ↔ ∃ i : Nat, w.dom.pointers[i]? = some 0) ∧
      (list_contains w.dom.pointers 0 = false → ∀ flags,
        swap fuel w prot_ptr new_val flags =
          .ret () (deallocator { w with mem := w.mem.set prot_ptr new_val } 0)) ∧
      (list_contains w.dom.pointers 0 = true →
        swap fuel w prot_ptr new_val 0 = .hang { w with mem := w.mem.set prot_ptr new_val } ∧
        ∃ w1, swap fuel w prot_ptr new_val DEFER_DEALLOC = .ret () w1 ∧
          w1.freed = w.freed) := by
  refine ⟨?_, ?_, ?_⟩
  · rw [list_contains_iff, List.mem_iff_getElem?]
  · intro hc flags
    simp [swap, h0, cleanup_ptr, hc]
  · intro hc
    refine ⟨?_, ?_⟩
    · have hs := spin_blocked fuel { w with mem := w.mem.set prot_ptr new_val } 0 hc
      simp [swap, h0, cleanup_ptr, hc, land_zero, hs]
    · simp only [swap, h0]
      rw [cleanup_ptr_deferred _ _ _ _ land_defer]
      simp [hc, World.setRetired]

theorem swap_of_sentinel_not_special_witness :
    domain_new [0, 5] [true, true] = some ⟨⟨[], []⟩, [0, 5], [true], []⟩ ∧
      swap 3 ⟨⟨[], []⟩, [0, 5], [true], []⟩ 0 7 0 =
        .ret () (deallocator ⟨⟨[], []⟩, [7, 5], [true], []⟩ 0) ∧
      run 1 ⟨⟨[], []⟩, [0, 5], [true], []⟩ [.load 1, .drop 5] =
        .ret () ⟨⟨[0], []⟩, [0, 5], [], []⟩ ∧
      swap 3 ⟨⟨[0], []⟩, [0, 5], [], []⟩ 0 7 0 = .hang ⟨⟨[0], []⟩, [7, 5], [], []⟩ ∧
      ∃ w1, swap 3 ⟨⟨[0], []⟩, [0, 5], [], []⟩ 0 7 DEFER_DEALLOC = .ret () w1 ∧
        w1.freed = [] :=
  ⟨by decide,
   (swap_of_sentinel_not_special 3 ⟨⟨[], []⟩, [0, 5], [true], []⟩ 0 7 (by decide)).2.1
      (by decide) 0,
   by decide,
   ((swap_of_sentinel_not_special 3 ⟨⟨[0], []⟩, [0, 5], [], []⟩ 0 7 (by decide)).2.2
      (by decide)).1,
   ((swap_of_sentinel_not_special 3 ⟨⟨[0], []⟩, [0, 5], [], []⟩ 0 7 (by decide)).2.2
      (by decide)).2⟩

/-- Claim C18 (frame).  `load` and `drop` leave the deallocator record, the retired
list and the memory (hence every shared location) as they were; `cleanup`
leaves the protected list as it was; `swap` leaves the protected list as it
was, and if it changes the retired list then the old value of the location is
held by a protected slot and the `DEFER_DEALLOC` bit is set.  This holds
whether the call returns or not. -/
theorem frame_of_calls (fuel : Nat) (w : World) (v prot_ptr new_val : Nat) (flags : Int) :
    ((load fuel w prot_ptr).world.freed = w.freed ∧
        (load fuel w prot_ptr).world.dom.retired = w.dom.retired ∧
        (load fuel w prot_ptr).world.mem = w.mem) ∧
      ((drop w v).world.freed = w.freed ∧ (drop w v).world.dom.retired = w.dom.retired ∧
        (drop w v).world.mem = w.mem) ∧
      (cleanup fuel w flags).world.dom.pointers = w.dom.pointers ∧
      (swap fuel w prot_ptr new_val flags).world.dom.pointers = w.dom.pointers ∧
      ((swap fuel w prot_ptr new_val flags).world.dom.retired ≠ w.dom.retired →
        ∃ old, w.mem[prot_ptr]? = some old ∧ list_contains w.dom.pointers old = true ∧
          Int.land flags DEFER_DEALLOC ≠ 0) := by
  refine ⟨?_, ?_, (cleanup_frame fuel w flags).1, ?_, ?_⟩
  · rcases load_world fuel w prot_ptr with h | ⟨val, _, h⟩
    · rw [h]; exact ⟨rfl, rfl, rfl⟩
    · rw [h]; exact ⟨rfl, rfl, rfl⟩
  · rw [drop_world]; exact ⟨rfl, rfl, rfl⟩
  · rcases swap_world fuel w prot_ptr new_val flags with h | ⟨old, _, ⟨_, h⟩ | ⟨_, _, h⟩ | h⟩ <;>
      rw [h] <;> rfl
  · intro hne
    rcases swap_world fuel w prot_ptr new_val flags with h | ⟨old, ho, ⟨_, h⟩ | ⟨hc, hf, h⟩ | h⟩
    · rw [h] at hne; exact absurd rfl hne
    · rw [h] at hne; exact absurd rfl hne
    · exact ⟨old, ho, hc, hf⟩
    · rw [h] at hne; exact absurd rfl hne

theorem frame_of_calls_witness :
    ∃ old, ([5, 8] : List Nat)[0]? = some old ∧ list_contains ([5] : hp_list) old = true ∧
      Int.land DEFER_DEALLOC DEFER_DEALLOC ≠ 0 :=
  (frame_of_calls 0 ⟨⟨[5], []⟩, [5, 8], [true], []⟩ 0 0 7 DEFER_DEALLOC).2.2.2.2 (by decide)

theorem load_ret (fuel : Nat) (w : World) (prot_ptr V : Nat)
    (hV : w.mem[prot_ptr]? = some V)
    (hroom : list_contains w.dom.pointers 0 = true ∨ (calloc w.heap).1 = true) :
    load (fuel + 1) w prot_ptr =
        .ret V { w.setPointers (list_insert_or_append w.heap w.dom.pointers V).2.1 with
          heap := (list_insert_or_append w.heap w.dom.pointers V).2.2 } ∧
      (list_insert_or_append w.heap w.dom.pointers V).1.isSome = true := by
  obtain ⟨node, ps, heap1, h1, _, _⟩ :=
    list_insert_or_append_some w.heap w.dom.pointers V hroom
  refine ⟨?_, by rw [h1]; rfl⟩
  simp [load, hV, h1, World.setPointers]

theorem takeWhile_first_empty (pre post : hp_list) (h : 0 ∉ pre) :
    (pre ++ 0 :: post).takeWhile (fun x => x != 0) = pre := by
  induction pre with
  | nil => simp
  | cons x rest ih =>
    have hx : x ≠ 0 := fun e => h (by simp [e])
    have hr : 0 ∉ rest := fun e => h (by simp [e])
    simp [List.takeWhile_cons, hx, ih hr]

theorem cycle_once (fuel : Nat) (w : World) (prot_ptr V : Nat)
    (hV : w.mem[prot_ptr]? = some V) (hnz : V ≠ 0)
    (hroom : list_contains w.dom.pointers 0 = true ∨ (calloc w.heap).1 = true) :
    ∃ w1, run (fuel + 1) w [.load prot_ptr, .drop V] = .ret () w1 ∧
      w1.mem = w.mem ∧ w1.dom.retired = w.dom.retired ∧ w1.freed = w.freed ∧
      list_contains w1.dom.pointers 0 = true ∧
      (∀ u, u ≠ 0 → w1.dom.pointers.count u = w.dom.pointers.count u) ∧
      (list_contains w.dom.pointers 0 = true →
        w1.dom.pointers.length = w.dom.pointers.length ∧
        (list_contains (w.dom.pointers.takeWhile (fun x => x != 0)) V = false →
          w1.dom.pointers = w.dom.pointers)) ∧
      (list_contains w.dom.pointers 0 = false → w1.dom.pointers = 0 :: w.dom.pointers) := by
  obtain ⟨hload, hsome⟩ := load_ret fuel w prot_ptr V hV hroom
  obtain ⟨node, ps, heap1, hins, _, hmem⟩ :=
    list_insert_or_append_some w.heap w.dom.pointers V hroom
  have hcnt : ∀ u, u ≠ 0 → ps.count u = w.dom.pointers.count u + (if u = V then 1 else 0) := by
    intro u hu
    have h := list_insert_or_append_count w.heap w.dom.pointers V u hu
    rw [hins] at h
    simpa using h
  rw [hins] at hload
  simp only at hload
  have hc : list_contains ps V = true := (list_contains_iff _ _).2 hmem
  let w0 : World := { w.setPointers ps with heap := heap1 }
  have hdrop : drop w0 V = .ret () (w0.setPointers (list_remove ps V).2) :=
    drop_of_contains w0 V hc
  refine ⟨w0.setPointers (list_remove ps V).2, ?_, rfl, rfl, rfl, ?_, ?_, ?_, ?_⟩
  · simp only [run, exec, hload, hdrop]
  · obtain ⟨a, b, _, _, h3⟩ := list_remove_split ps V hmem
    rw [list_contains_iff]
    simp [World.setPointers, h3]
  · intro u hu
    show (list_remove ps V).2.count u = w.dom.pointers.count u
    by_cases e : u = V
    · subst e
      have h1 := list_remove_count ps u hmem hu
      have h2 := hcnt u hu
      simp at h2
      omega
    · rw [list_remove_count_ne ps V u e hu, hcnt u hu]
      simp [e]
  · intro h0
    obtain ⟨pre, post, h1, h2, h3⟩ :=
      list_insert_scan_split w.dom.pointers V ((list_contains_iff _ _).1 h0)
    have hps : ps = pre ++ V :: post := by
      simp only [list_insert_or_append, h3] at hins
      simp only [Prod.mk.injEq] at hins
      exact hins.2.1.symm
    refine ⟨?_, ?_⟩
    · show (list_remove ps V).2.length = w.dom.pointers.length
      rw [list_remove_length, hps, h1]
      simp
    · intro hcond
      show (list_remove ps V).2 = w.dom.pointers
      have hVpre : V ∉ pre := by
        rw [h1, takeWhile_first_empty pre post h2] at hcond
        exact (list_contains_false_iff _ _).1 hcond
      rw [hps, list_remove_append pre (V :: post) V hVpre, h1]
      simp [list_remove]
  · intro h0
    have h0m : 0 ∉ w.dom.pointers := (list_contains_false_iff _ 0).1 h0
    have hcal : (calloc w.heap).1 = true := by
      rcases hroom with h | h
      · rw [h0] at h; exact Bool.noConfusion h
      · exact h
    have hps : ps = V :: w.dom.pointers := by
      simp only [list_insert_or_append, list_insert_scan_none _ V h0m, list_append_eq, hcal,
        if_true, Prod.mk.injEq] at hins
      exact hins.2.1.symm
    show (list_remove ps V).2 = 0 :: w.dom.pointers
    rw [hps]
    simp [list_remove]

theorem cycles_with_empty_slot (fuel : Nat) (prot_ptr V : Nat) (hnz : V ≠ 0) (n : Nat) :
    ∀ w : World, w.mem[prot_ptr]? = some V → list_contains w.dom.pointers 0 = true →
      ∃ w1, run (fuel + 1) w (cycles prot_ptr V n) = .ret () w1 ∧
        w1.mem = w.mem ∧ w1.dom.retired = w.dom.retired ∧ w1.freed = w.freed ∧
        w1.dom.pointers.length = w.dom.pointers.length ∧
        (∀ u, u ≠ 0 → w1.dom.pointers.count u = w.dom.pointers.count u) ∧
        (list_contains (w.dom.pointers.takeWhile (fun x => x != 0)) V = false →
          w1.dom.pointers = w.dom.pointers) := by
  induction n with
  | zero =>
    intro w _ _
    exact ⟨w, rfl, rfl, rfl, rfl, rfl, fun _ _ => rfl, fun _ => rfl⟩
  | succ n ih =>
    intro w hV h0
    obtain ⟨w1, hrun, hm, hr, hf, h01, hcnt, hsame, _⟩ :=
      cycle_once fuel w prot_ptr V hV hnz (Or.inl h0)
    obtain ⟨hlen, hkeep⟩ := hsame h0
    obtain ⟨w2, hrun2, hm2, hr2, hf2, hlen2, hcnt2, hkeep2⟩ := ih w1 (by rw [hm]; exact hV) h01
    refine ⟨w2, ?_, by rw [hm2, hm], by rw [hr2, hr], by rw [hf2, hf], by rw [hlen2, hlen],
      fun u hu => by rw [hcnt2 u hu, hcnt u hu], ?_⟩
    · have happ := run_append (fuel + 1) [.load prot_ptr, .drop V] (cycles prot_ptr V n) w
      simp only [List.cons_append, List.nil_append] at happ
      rw [cycles, happ, hrun]
      exact hrun2
    · intro hcond
      have e1 := hkeep hcond
      rw [e1] at hkeep2
      exact hkeep2 hcond

/-- Claim C14, amended.  With a location holding a non-zero `V`, and a slot to be
had for the first `load` (an empty protected slot, or a successful
allocation), `n >= 1` consecutive load/drop cycles all return.  If an empty
slot existed the node count is unchanged, otherwise exactly one node has been
added, at the head, and it is empty with the old chain behind it unchanged.
Every non-zero value is held by as many protected slots as before.  Slot by
slot the chain is as before provided no slot ahead of the first empty slot
held `V`.  The retired list, the memory and the deallocator record are
unchanged. -/
theorem load_drop_cycles_reuse_slot (fuel : Nat) (w : World) (prot_ptr V n : Nat)
    (hV : w.mem[prot_ptr]? = some V) (hnz : V ≠ 0)
    (hroom : list_contains w.dom.pointers 0 = true ∨ (calloc w.heap).1 = true)
    (hn : 1 ≤ n) :
    ∃ w1, run (fuel + 1) w (cycles prot_ptr V n) = .ret () w1 ∧
      (list_contains w.dom.pointers 0 = true →
        w1.dom.pointers.length = w.dom.pointers.length) ∧
      (list_contains w.dom.pointers 0 = false → w1.dom.pointers = 0 :: w.dom.pointers) ∧
      (∀ u, u ≠ 0 → w1.dom.pointers.count u = w.dom.pointers.count u) ∧
      (list_contains w.dom.pointers 0 = true →
        list_contains (w.dom.pointers.takeWhile (fun x => x != 0)) V = false →
        w1.dom.pointers = w.dom.pointers) ∧
      w1.dom.retired = w.dom.retired ∧ w1.mem = w.mem ∧ w1.freed = w.freed := by
  obtain ⟨m, rfl⟩ : ∃ m, n = m + 1 := ⟨n - 1, by omega⟩
  obtain ⟨w1, hrun, hm, hr, hf, h01, hcnt, hsame, hnew⟩ :=
    cycle_once fuel w prot_ptr V hV hnz hroom
  obtain ⟨w2, hrun2, hm2, hr2, hf2, hlen2, hcnt2, hkeep2⟩ :=
    cycles_with_empty_slot fuel prot_ptr V hnz m w1 (by rw [hm]; exact hV) h01
  have happ := run_append (fuel + 1) [.load prot_ptr, .drop V] (cycles prot_ptr V m) w
  simp only [List.cons_append, List.nil_append] at happ
  refine ⟨w2, ?_, ?_, ?_, fun u hu => by rw [hcnt2 u hu, hcnt u hu], ?_,
    by rw [hr2, hr], by rw [hm2, hm], by rw [hf2, hf]⟩
  · rw [cycles, happ, hrun]; exact hrun2
  · intro h0; rw [hlen2, (hsame h0).1]
  · intro h0
    have e1 := hnew h0
    have hc : list_contains (w1.dom.pointers.takeWhile (fun x => x != 0)) V = false := by
      rw [e1]; simp [list_contains]
    rw [hkeep2 hc, e1]
  · intro h0 hcond
    have e1 := (hsame h0).2 hcond
    rw [e1] at hkeep2
    exact hkeep2 hcond

theorem load_drop_cycles_reuse_slot_witness :
    ∃ w1, run (0 + 1) ⟨⟨[7, 0, 5], [3]⟩, [5], [], []⟩ (cycles 0 5 3) = .ret () w1 ∧
      (list_contains ([7, 0, 5] : hp_list) 0 = true →
        w1.dom.pointers.length = ([7, 0, 5] : hp_list).length) ∧
      (list_contains ([7, 0, 5] : hp_list) 0 = false → w1.dom.pointers = 0 :: [7, 0, 5]) ∧
      (∀ u, u ≠ 0 → w1.dom.pointers.count u = ([7, 0, 5] : hp_list).count u) ∧
      (list_contains ([7, 0, 5] : hp_list) 0 = true →
        list_contains (([7, 0, 5] : hp_list).takeWhile (fun x => x != 0)) 5 = false →
        w1.dom.pointers = [7, 0, 5]) ∧
      w1.dom.retired = [3] ∧ w1.mem = [5] ∧ w1.freed = [] :=
  load_drop_cycles_reuse_slot 0 ⟨⟨[7, 0, 5], [3]⟩, [5], [], []⟩ 0 5 3
    (by decide) (by decide) (Or.inl (by decide)) (by decide)

/-- Claim C14 fails as stated when the value is already protected in a slot ahead of
the first empty slot: `load` fills the empty slot, `drop` clears the first slot
holding the value, so after one cycle the two slots have exchanged their
values. -/
theorem load_drop_cycle_moves_value :
    run 1 ⟨⟨[5, 0], []⟩, [5], [], []⟩ (cycles 0 5 1) =
        .ret () ⟨⟨[0, 5], []⟩, [5], [], []⟩ ∧
      ([5, 0] : hp_list)[0]? = some 5 ∧ ([0, 5] : hp_list)[0]? = some 0 := by
  decide

theorem calloc_snd (heap : List Bool) : (calloc heap).2 = heap.tail := by
  cases heap <;> rfl

theorem calloc_all_true (heap : List Bool) (hall : ∀ b ∈ heap, b = true)
    (hlen : 1 ≤ heap.length) : (calloc heap).1 = true := by
  cases heap with
  | nil => simp at hlen
  | cons b rest => exact hall b (by simp)

theorem protection_counting_aux (fuel : Nat) (prot_ptr V : Nat) (hnz : V ≠ 0)
    (calls : List Call) :
    ∀ (w : World) (credit : Nat), w.mem[prot_ptr]? = some V →
      credit ≤ w.dom.pointers.count V →
      well_matched prot_ptr V credit calls = true →
      (∀ b ∈ w.heap, b = true) → num_loads calls ≤ w.heap.length →
      ∃ w1, run (fuel + 1) w calls = .ret () w1 ∧
        w1.dom.pointers.count V + num_drops calls = w.dom.pointers.count V + num_loads calls ∧
        w1.mem = w.mem ∧ w1.dom.retired = w.dom.retired ∧ w1.freed = w.freed := by
  induction calls with
  | nil =>
    intro w credit _ _ _ _ _
    exact ⟨w, rfl, rfl, rfl, rfl, rfl⟩
  | cons c cs ih =>
    intro w credit hV hcr hm hall hlen
    cases c with
    | load q =>
      simp only [well_matched, Bool.and_eq_true, beq_iff_eq] at hm
      obtain ⟨hq, hm⟩ := hm
      subst hq
      simp only [num_loads] at hlen
      have hcal : (calloc w.heap).1 = true := calloc_all_true w.heap hall (by omega)
      obtain ⟨hload, hsome⟩ := load_ret fuel w q V hV (Or.inr hcal)
      have hcnt := list_insert_or_append_count w.heap w.dom.pointers V V hnz
      simp only [hsome, and_self, if_true] at hcnt
      have hheap := list_insert_or_append_heap w.heap w.dom.pointers V
      obtain ⟨w1, hrun, hc1, hm1, hr1, hf1⟩ :=
        ih { w.setPointers (list_insert_or_append w.heap w.dom.pointers V).2.1 with
             heap := (list_insert_or_append w.heap w.dom.pointers V).2.2 } (credit + 1) hV
          (by simp only [World.setPointers]; omega) hm
          (by
            intro b hb
            have hb2 : b ∈ (list_insert_or_append w.heap w.dom.pointers V).2.2 := hb
            rcases hheap with h | h
            · rw [h] at hb2; exact hall b hb2
            · rw [h, calloc_snd] at hb2; exact hall b (List.mem_of_mem_tail hb2))
          (by
            show num_loads cs ≤ (list_insert_or_append w.heap w.dom.pointers V).2.2.length
            rcases hheap with h | h
            · rw [h]; omega
            · rw [h, calloc_snd, List.length_tail]; omega)
      refine ⟨w1, ?_, ?_, hm1, hr1, hf1⟩
      · simp only [run, exec, hload]; exact hrun
      · simp only [World.setPointers] at hc1
        simp only [num_loads, num_drops]
        omega
    | drop u =>
      cases credit with
      | zero => simp [well_matched] at hm
      | succ k =>
        simp only [well_matched, Bool.and_eq_true, beq_iff_eq] at hm
        obtain ⟨hu, hm⟩ := hm
        subst hu
        have hmem : u ∈ w.dom.pointers := List.count_pos_iff.1 (by omega)
        have hrem := list_remove_count w.dom.pointers u hmem hnz
        obtain ⟨w1, hrun, hc1, hm1, hr1, hf1⟩ :=
          ih (w.setPointers (list_remove w.dom.pointers u).2) k hV
            (by simp only [World.setPointers]; omega) hm hall
            (by simpa [num_loads] using hlen)
        refine ⟨w1, ?_, ?_, hm1, hr1, hf1⟩
        · simp only [run, exec, drop_of_contains w u ((list_contains_iff _ _).2 hmem)]
          exact hrun
        · simp only [World.setPointers] at hc1
          simp only [num_loads, num_drops]
          omega
    | swap a b f => simp [well_matched] at hm
    | cleanup f => simp [well_matched] at hm

/-- Claim C15.  Let a location hold a non-zero `V` and let `calls` consist of loads
of that location and drops of `V`, in any order in which no drop finds `V`
absent (the credit is the initial number of slots holding `V`), with every
allocation succeeding.  Then the run returns and the number of protected
slots holding `V` is the initial number plus the number of loads minus the
number of drops; the memory, the retired list and the deallocator record are
unchanged.  As long as some load is unmatched, `V` is in the protected list and
a `swap` with `DEFER_DEALLOC` on the location returns without invoking the
deallocator. -/
theorem protection_counting (fuel : Nat) (w : World) (prot_ptr V : Nat) (calls : List Call)
    (hV : w.mem[prot_ptr]? = some V) (hnz : V ≠ 0)
    (hcalls : well_matched prot_ptr V (w.dom.pointers.count V) calls = true)
    (hall : ∀ b ∈ w.heap, b = true) (hlen : num_loads calls ≤ w.heap.length) :
    ∃ w1, run (fuel + 1) w calls = .ret () w1 ∧
      w1.dom.pointers.count V + num_drops calls = w.dom.pointers.count V + num_loads calls ∧
      w1.mem = w.mem ∧ w1.dom.retired = w.dom.retired ∧ w1.freed = w.freed ∧
      (num_drops calls < num_loads calls →
        list_contains w1.dom.pointers V = true ∧
        ∀ fuel2 new_val, ∃ w2, swap fuel2 w1 prot_ptr new_val DEFER_DEALLOC = .ret () w2 ∧
          w2.freed = w1.freed) := by
  obtain ⟨w1, hrun, hc, hm, hr, hf⟩ :=
    protection_counting_aux fuel prot_ptr V hnz calls w _ hV (Nat.le_refl _) hcalls hall hlen
  refine ⟨w1, hrun, hc, hm, hr, hf, fun hlt => ?_⟩
  have hprot : list_contains w1.dom.pointers V = true :=
    (list_contains_iff _ _).2 (List.count_pos_iff.1 (by omega))
  refine ⟨hprot, fun fuel2 new_val => ?_⟩
  have hV1 : w1.mem[prot_ptr]? = some V := by rw [hm]; exact hV
  simp only [swap, hV1]
  rw [cleanup_ptr_deferred _ _ _ _ land_defer]
  simp [hprot, World.setRetired]

theorem protection_counting_witness :
    ∃ w1, run (0 + 1) ⟨⟨[5, 0], []⟩, [5], [true, true, true], []⟩
        [.drop 5, .load 0, .load 0, .drop 5, .load 0] = .ret () w1 ∧
      w1.dom.pointers.count 5 + num_drops [.drop 5, .load 0, .load 0, .drop 5, .load 0] =
        ([5, 0] : hp_list).count 5 +
          num_loads [.drop 5, .load 0, .load 0, .drop 5, .load 0] ∧
      w1.mem = [5] ∧ w1.dom.retired = [] ∧ w1.freed = [] ∧
      (num_drops [.drop 5, .load 0, .load 0, .drop 5, .load 0] <
          num_loads [.drop 5, .load 0, .load 0, .drop 5, .load 0] →
        list_contains w1.dom.pointers 5 = true ∧
        ∀ fuel2 new_val, ∃ w2, swap fuel2 w1 0 new_val DEFER_DEALLOC = .ret () w2 ∧
          w2.freed = w1.freed) :=
  protection_counting 0 ⟨⟨[5, 0], []⟩, [5], [true, true, true], []⟩ 0 5
    [.drop 5, .load 0, .load 0, .drop 5, .load 0] (by decide) (by decide) (by decide)
    (by decide) (by decide)

theorem exec_leaked (fuel : Nat) (v c : Nat) (w : World) (call : Call)
    (hst : ∀ x ∈ stores [call], x ≠ v) (hw : Leaked v c w) :
    Leaked v c (exec fuel w call).world := by
  obtain ⟨hm, hr, hf⟩ := hw
  cases call with
  | load prot_ptr =>
    have hwd : (exec fuel w (.load prot_ptr)).world = (load fuel w prot_ptr).world := by
      simp only [exec]; cases load fuel w prot_ptr <;> rfl
    rw [hwd]
    rcases load_world fuel w prot_ptr with h | ⟨val, _, h⟩
    · rw [h]; exact ⟨hm, hr, hf⟩
    · rw [h]; exact ⟨hm, hr, hf⟩
  | drop safe_val =>
    simp only [exec]
    rw [drop_world]
    exact ⟨hm, hr, hf⟩
  | cleanup flags =>
    simp only [exec, cleanup]
    refine cleanup_loop_invariant (Leaked v c) ?_ fuel flags _ _ w ⟨hm, hr, hf⟩
    intro w1 ptr ⟨h1, h2, h3⟩ hp0 _ hpm
    have hne : ptr ≠ v := by
      intro e
      by_cases hv0 : v = 0
      · exact hp0 (e.trans hv0)
      · exact h2 hv0 (e ▸ hpm)
    obtain ⟨pre, post, _, _, hsplit⟩ := list_remove_split w1.dom.retired ptr hpm
    have hrf : remove_and_free w1 ptr =
        deallocator (w1.setRetired (list_remove w1.dom.retired ptr).2) ptr := by
      simp [remove_and_free, hsplit]
    rw [hrf]
    refine ⟨h1, fun hv0 => ?_, ?_⟩
    · have hle := list_remove_count_le w1.dom.retired ptr v hv0
      have hz : w1.dom.retired.count v = 0 := List.count_eq_zero.2 (h2 hv0)
      exact List.count_eq_zero.1 (by
        show (list_remove w1.dom.retired ptr).2.count v = 0
        omega)
    · rw [freedVals_deallocator, if_neg hne]
      exact h3
  | swap prot_ptr new_val flags =>
    simp only [exec]
    have hnew : new_val ≠ v := hst new_val (by simp [stores])
    have hmz : w.mem.count v = 0 := List.count_eq_zero.2 hm
    rcases swap_world fuel w prot_ptr new_val flags with h | ⟨old, ho, hcase⟩
    · rw [h]; exact ⟨hm, hr, hf⟩
    · have hold : old ≠ v := fun e => hm (e ▸ List.getElem?_mem ho)
      have hset : v ∉ w.mem.set prot_ptr new_val := by
        have h1 := count_set_add w.mem new_val v old prot_ptr ho
        rw [if_neg hold, if_neg hnew] at h1
        exact List.count_eq_zero.1 (by omega)
      rcases hcase with ⟨_, h⟩ | ⟨_, _, h⟩ | h
      · rw [h]
        refine ⟨hset, hr, ?_⟩
        rw [freedVals_deallocator, if_neg hold]
        exact hf
      · rw [h]
        refine ⟨hset, fun hv0 => ?_, hf⟩
        have hcnt := list_insert_or_append_count w.heap w.dom.retired old v hv0
        have hz : w.dom.retired.count v = 0 := List.count_eq_zero.2 (hr hv0)
        have hne : ¬ (v = old ∧ (list_insert_or_append w.heap w.dom.retired old).1.isSome = true) :=
          fun x => hold x.1.symm
        rw [if_neg hne] at hcnt
        exact List.count_eq_zero.1 (by
          show (list_insert_or_append w.heap w.dom.retired old).2.1.count v = 0
          omega)
      · rw [h]; exact ⟨hset, hr, hf⟩

theorem run_leaked (fuel : Nat) (v c : Nat) (calls : List Call) :
    ∀ w, (∀ x ∈ stores calls, x ≠ v) → Leaked v c w → Leaked v c (run fuel w calls).world := by
  induction calls with
  | nil => intro w _ h; exact h
  | cons call cs ih =>
    intro w hst hw
    have hhead : ∀ x ∈ stores [call], x ≠ v := by
      intro x hx
      apply hst x
      cases call <;> simp_all [stores]
    have htail : ∀ x ∈ stores cs, x ≠ v := by
      intro x hx
      apply hst x
      cases call <;> simp_all [stores]
    have h1 := exec_leaked fuel v c w call hhead hw
    rw [run]
    cases he : exec fuel w call with
    | ret u w1 => rw [he] at h1; exact ih w1 htail h1
    | hang w1 => rw [he] at h1; exact h1
    | undef w1 => rw [he] at h1; exact h1

/-- Claim C19, amended.  For a `swap` with `DEFER_DEALLOC` whose old value `v` is
protected, when the retired list has no empty slot and the allocation fails,
the call returns with the new value stored, the deallocator not invoked and
the protected and retired lists unchanged: `v` has not been retired.  If
moreover `v` was not in the retired list already, no other location holds `v`
and `v` is not stored again, then whatever calls follow, with whatever fuel and
flags, the deallocator is never invoked on `v` and `v` never enters the
retired list. -/
theorem deferred_swap_alloc_failure_leaks (fuel : Nat) (w : World)
    (prot_ptr new_val v : Nat)
    (hv : w.mem[prot_ptr]? = some v)
    (hprot : list_contains w.dom.pointers v = true)
    (hfull : list_contains w.dom.retired 0 = false)
    (hfail : (calloc w.heap).1 = false) :
    ∃ w1, swap fuel w prot_ptr new_val DEFER_DEALLOC = .ret () w1 ∧
      w1.mem = w.mem.set prot_ptr new_val ∧ w1.freed = w.freed ∧ w1.dom = w.dom ∧
      (list_contains w.dom.retired v = false → w.mem.count v = 1 → new_val ≠ v →
        ∀ fuel2 calls, (∀ x ∈ stores calls, x ≠ v) →
          (run fuel2 w1 calls).world.freedVals.count v = w.freedVals.count v ∧
          (v ≠ 0 → list_contains (run fuel2 w1 calls).world.dom.retired v = false)) := by
  have h0m : 0 ∉ w.dom.retired := (list_contains_false_iff _ 0).1 hfull
  have hins : list_insert_or_append w.heap w.dom.retired v =
      (none, w.dom.retired, (calloc w.heap).2) := by
    simp [list_insert_or_append, list_insert_scan_none _ v h0m, list_append_eq, hfail]
  let w1 : World := { w with mem := w.mem.set prot_ptr new_val, heap := (calloc w.heap).2 }
  have hswap : swap fuel w prot_ptr new_val DEFER_DEALLOC = .ret () w1 := by
    simp only [swap, hv]
    rw [cleanup_ptr_deferred _ _ _ _ land_defer]
    simp [hprot, hins, World.setRetired, w1]
  refine ⟨w1, hswap, rfl, rfl, rfl, ?_⟩
  intro hnr hone hnew fuel2 calls hst
  have hleak : Leaked v (w.freedVals.count v) w1 := by
    refine ⟨?_, fun _ => (list_contains_false_iff _ _).1 hnr, rfl⟩
    have h1 := count_set_add w.mem new_val v v prot_ptr hv
    rw [if_pos rfl, if_neg hnew] at h1
    exact List.count_eq_zero.1 (by
      show (w.mem.set prot_ptr new_val).count v = 0
      omega)
  obtain ⟨_, h2, h3⟩ := run_leaked fuel2 v _ calls w1 hst hleak
  exact ⟨h3, fun hv0 => (list_contains_false_iff _ _).2 (h2 hv0)⟩

theorem deferred_swap_alloc_failure_leaks_witness :
    ∃ w1, swap 2 ⟨⟨[5], [9]⟩, [5, 3], [false], []⟩ 0 7 DEFER_DEALLOC = .ret () w1 ∧
      w1.mem = ([5, 3] : List Nat).set 0 7 ∧ w1.freed = [] ∧ w1.dom = ⟨[5], [9]⟩ ∧
      ∀ fuel2 calls, (∀ x ∈ stores calls, x ≠ 5) →
        (run fuel2 w1 calls).world.freedVals.count 5 =
          (World.freedVals ⟨⟨[5], [9]⟩, [5, 3], [false], []⟩).count 5 ∧
        (5 ≠ 0 → list_contains (run fuel2 w1 calls).world.dom.retired 5 = false) := by
  obtain ⟨w1, h1, h2, h3, h4, h5⟩ :=
    deferred_swap_alloc_failure_leaks 2 ⟨⟨[5], [9]⟩, [5, 3], [false], []⟩ 0 7 5
      (by decide) (by decide) (by decide) (by decide)
  exact ⟨w1, h1, h2, h3, h4, h5 (by decide) (by decide) (by decide)⟩

/-- Claim C19 fails as stated when the retired list already holds `v`: the failed
deferred `swap` leaves `5` in the retired list, and after the `drop` the next
`cleanup` invokes the deallocator on `5`. -/
theorem deferred_swap_alloc_failure_already_retired :
    list_contains ([5] : hp_list) 0 = false ∧ (calloc []).1 = false ∧
      swap 1 ⟨⟨[5], [5]⟩, [5], [], []⟩ 0 7 DEFER_DEALLOC =
        .ret () ⟨⟨[5], [5]⟩, [7], [], []⟩ ∧
      run 1 ⟨⟨[5], [5]⟩, [7], [], []⟩ [.drop 5, .cleanup DEFER_DEALLOC] =
        .ret () ⟨⟨[0], [0]⟩, [7], [], [⟨5, [0]⟩]⟩ := by
  decide

end HP
